import Mathlib

/-!
The local backup engine of gickup (`local/local.go`).

A shallow embedding of `Locally` and its helpers.  Go strings are Lean `String`s,
the path helpers of Go's standard library (`path.Clean`, `path.Join`,
`path.Dir`) are executable functions on character lists, and every call that
leaves the program (file system, git transport, archiver, clock) is answered by
an `Env` of oracles and recorded in a trace of `Event`s, in program order.
Log output is not part of the trace; what a `log.Fatal` does to the process is.
-/

namespace Gickup

/-! ## Go's `path` package -/

/-- One step of the element loop of `path.Clean`: `stack` holds the elements
written so far, last one first.  A `..` removes the element before it when
there is one that is not itself `..`; otherwise it is kept on an unrooted path
and dropped on a rooted one. -/
def cleanStep (rooted : Bool) (stack : List (List Char)) (el : List Char) : List (List Char) :=
  if el = ['.', '.'] then
    match stack with
    | top :: rest => if top = ['.', '.'] then el :: stack else rest
    | [] => if rooted then [] else [el]
  else el :: stack

/-- Go `path.Clean` on the characters of a path: empty and `.` elements are
dropped, `..` elements are resolved, slashes are single, and the empty result
is `.`. -/
def cleanChars (p : List Char) : List Char :=
  if p = [] then ['.']
  else
    let rooted := p.head? = some '/'
    let elems := (p.splitOn '/').filter (fun el => el ≠ [] ∧ el ≠ ['.'])
    let stack := elems.foldl (cleanStep rooted) []
    let body := List.intercalate ['/'] stack.reverse
    if rooted then '/' :: body
    else if body = [] then ['.'] else body

/-- Go `path.Clean`. -/
def pathClean (p : String) : String := ⟨cleanChars p.data⟩

/-- The buffer loop of `path.Join`: leading empty elements are skipped, every
later element is appended after a slash. -/
def joinBuf : List Char → List String → List Char
  | buf, [] => buf
  | buf, e :: es =>
    if buf ≠ [] ∨ e ≠ "" then
      joinBuf ((if buf ≠ [] then buf ++ ['/'] else buf) ++ e.data) es
    else joinBuf buf es

/-- Go `path.Join`: the empty string when every element is empty, the cleaned
slash-joined elements otherwise. -/
def pathJoin (elem : List String) : String :=
  if (elem.map String.length).sum = 0 then ""
  else ⟨cleanChars (joinBuf [] elem)⟩

/-- The directory half of Go `path.Split`: everything up to and including the
last slash. -/
def splitDir : List Char → List Char
  | [] => []
  | c :: cs =>
    if '/' ∈ cs then c :: splitDir cs
    else if c = '/' then ['/'] else []

/-- Go `path.Dir`. -/
def pathDir (p : String) : String := ⟨cleanChars (splitDir p.data)⟩

/-- Go `fmt.Sprint` of an `int64`: the decimal digits, after a minus sign for a
negative number. -/
def sprintInt (n : Int) : String :=
  if n < 0 then "-" ++ Nat.repr n.natAbs else Nat.repr n.toNat

/-! ## Data model (`types.Repo`, `types.Local`) -/

/-- The fields of `repo.Origin` that `local.go` reads. -/
structure Origin where
  SSH : Bool
  SSHKey : String
  Username : String
  Password : String
deriving DecidableEq, Repr

/-- The fields of `types.Repo` that `local.go` reads. -/
structure Repo where
  Name : String
  URL : String
  SSHURL : String
  Token : String
  Hoster : String
  Owner : String
  Origin : Origin
deriving DecidableEq, Repr

/-- The fields of `types.Local` that `local.go` reads. -/
structure Local where
  Path : String
  Structured : Bool
  Bare : Bool
  Keep : Int
  Compression : String
deriving DecidableEq, Repr

/-- Lines 31-41 of `Locally`: the three rewrites of `repo.Name`, in program
order; `unix` is `date.Unix()` of the `time.Now()` taken on entry. -/
def targetName (repo : Repo) (l : Local) (unix : Int) : String :=
  let name := if l.Structured then pathJoin [repo.Hoster, repo.Owner, repo.Name] else repo.Name
  let name := if l.Bare then name ++ ".git" else name
  let name := if l.Keep > 0 then pathJoin [name, sprintInt unix] else name
  name

/-! ## Go's `strings` and `strconv` helpers -/

/-- Go `strings.Contains`. -/
def strContains (s sub : String) : Bool :=
  s.data.tails.any (fun t => sub.data.isPrefixOf t)

/-- Go `strings.HasSuffix`. -/
def hasSuffix (s suffix : String) : Bool :=
  suffix.data.isSuffixOf s.data

/-- Go `strings.TrimSuffix`. -/
def trimSuffix (s suffix : String) : String :=
  if hasSuffix s suffix then ⟨s.data.take (s.data.length - suffix.data.length)⟩ else s

/-- Whether Go `strconv.ParseInt(s, 10, 64)` returns no error: an optional
sign, then one or more decimal digits, the value within the `int64` range. -/
def parseIntOk (s : String) : Bool :=
  let neg := s.data.head? = some '-'
  let digits := if s.data.head? = some '-' ∨ s.data.head? = some '+' then s.data.tail else s.data
  let value := digits.foldl (fun acc c => 10 * acc + (c.toNat - '0'.toNat)) 0
  digits ≠ [] ∧ digits.all Char.isDigit ∧ (if neg then value ≤ 2 ^ 63 else value < 2 ^ 63)

/-! ## The world outside the program -/

/-- What `os.Stat` reports: no such entry, a plain file, a directory, or some
other error (in which case the returned `FileInfo` is nil). -/
inductive StatResult where
  | notExist
  | file
  | dir
  | failed
deriving DecidableEq, Repr

/-- The value of `transport.AuthMethod` handed to the git transport. -/
inductive AuthMethod where
  | publicKeys (user : String) (keyFile : String)
  | basicAuth (username : String) (password : String)
  | none
deriving DecidableEq, Repr

/-- The archive formats built by `getArchiverFmt`. -/
inductive ArchiveFormat where
  | zip
  | tarZstd
deriving DecidableEq, Repr

/-- Calls that leave the program, with the arguments that matter and, where a
later theorem needs it, the error the call came back with. -/
inductive Event where
  | statPath (path : String)
  | mkdirAll (path : String)
  | chdir (path : String)
  | statRepo (path : String)
  | sshProbe (url : String) (keyFile : String)
  | listRemote (url : String) (auth : AuthMethod)
  | plainClone (path : String) (url : String) (bare : Bool) (auth : AuthMethod)
      (err : Option String)
  | plainOpen (path : String)
  | fetch (path : String) (auth : AuthMethod)
  | pull (path : String) (auth : AuthMethod) (err : Option String)
  | removeAll (path : String)
  | sleep (seconds : Nat)
  | filesFromDisk (path : String) (err : Option String)
  | create (path : String) (err : Option String)
  | archive (fmt : ArchiveFormat) (out : String) (err : Option String)
  | readDir (path : String)
deriving DecidableEq, Repr

/-- Answers of the outside world.  An `Option String` is a Go `error` (`none`
is nil); answers that can differ between attempts take the attempt number. -/
structure Env where
  now : Int
  home : String
  statPath : StatResult
  mkdirAll : Option String
  statPathAgain : StatResult
  chdir : Option String
  loadKey : String → Option String
  statRepo : Nat → StatResult
  getValues : String → Option String
  gophKey : String → Option String
  testSSH : Nat → Option String
  remList : Nat → Option String
  plainClone : Nat → Option String
  plainOpen : Nat → Option String
  fetch : Nat → Option String
  worktree : Nat → Option String
  pull : Nat → Option String
  filesFromDisk : Option String
  create : Option String
  archive : Option String
  readDir : Except String (List String)

/-- How a call of `Locally` ends: it returns to its caller, the process is
ended by `log.Fatal` (`os.Exit(1)`), the process panics on a nil `FileInfo`, or
the model ran out of loop fuel. -/
inductive Outcome where
  | returned (ok : Bool)
  | exited
  | panicked
  | outOfFuel
deriving DecidableEq, Repr

/-- Result of one call: how it ended and what it did, in order. -/
structure Result where
  outcome : Outcome
  trace : List Event
deriving DecidableEq, Repr

/-- `tries := 5` (line 66). -/
def tries : Nat := 5

/-- The delay of `time.Sleep(5 * time.Second)`, in seconds. -/
def retryDelay : Nat := 5

/-! ## `local.go` -/

/-- `getCompressedArchiveSuffix`. -/
def getCompressedArchiveSuffix (compression : String) : String :=
  if compression = "zip" then ".zip"
  else if compression = "zstd" then ".tar.zst"
  else ".zip"

/-- `getArchiverFmt`. -/
def getArchiverFmt (compression : String) : ArchiveFormat :=
  if compression = "zip" then ArchiveFormat.zip
  else if compression = "zstd" then ArchiveFormat.tarZstd
  else ArchiveFormat.zip

/-- Lines 43-64 of `Locally`: make sure the destination exists and enter it.
`Except.error` carries the trace of a call that returns `false` here. -/
def setupDest (env : Env) (l : Local) (dry : Bool) : Except (List Event) (List Event) :=
  let made : Except (List Event) (StatResult × List Event) :=
    if env.statPath = StatResult.notExist ∧ dry = false then
      match env.mkdirAll with
      | some _ => Except.error [Event.statPath l.Path, Event.mkdirAll l.Path]
      | none => Except.ok (env.statPathAgain,
          [Event.statPath l.Path, Event.mkdirAll l.Path, Event.statPath l.Path])
    else Except.ok (env.statPath, [Event.statPath l.Path])
  match made with
  | Except.error ev => Except.error ev
  | Except.ok (stat, ev) =>
    if stat = StatResult.dir then
      match env.chdir with
      | some _ => Except.error (ev ++ [Event.chdir l.Path])
      | none => Except.ok (ev ++ [Event.chdir l.Path])
    else Except.ok ev

/-- Lines 68-95 of `Locally`: the `switch` that picks the credentials.  The
SSH case also fills in `repo.Origin.SSHKey`; `Except.error` is the failed key
load, after which `Locally` returns `false`. -/
def selectAuth (env : Env) (repo : Repo) : Except String (Repo × AuthMethod) :=
  if repo.Origin.SSH = true then
    let key := if repo.Origin.SSHKey = "" then pathJoin [env.home, ".ssh", "id_rsa"]
      else repo.Origin.SSHKey
    let repo := { repo with Origin := { repo.Origin with SSHKey := key } }
    match env.loadKey key with
    | some e => Except.error e
    | none => Except.ok (repo, AuthMethod.publicKeys "git" key)
  else if repo.Token ≠ "" then
    Except.ok (repo, AuthMethod.basicAuth "xyz" repo.Token)
  else if repo.Origin.Username ≠ "" ∧ repo.Origin.Password ≠ "" then
    Except.ok (repo, AuthMethod.basicAuth repo.Origin.Username repo.Origin.Password)
  else Except.ok (repo, AuthMethod.none)

/-- What `cloneRepository` comes back with: nil, an error, or not at all
because `log.Fatal` ended the process. -/
inductive CloneResult where
  | ok
  | failed (msg : String)
  | fatal
deriving DecidableEq, Repr

/-- `cloneRepository` on attempt `x`. -/
def cloneRepository (env : Env) (repo : Repo) (auth : AuthMethod) (dry bare : Bool) (x : Nat) :
    List Event × CloneResult :=
  if dry = true then ([], CloneResult.ok)
  else
    let url := if repo.Origin.SSH = true then repo.SSHURL else repo.URL
    let probe : List Event × Bool :=
      if repo.Origin.SSH = true then
        match env.getValues url with
        | some _ => ([], true)
        | none =>
          match env.gophKey repo.Origin.SSHKey with
          | some _ => ([], true)
          | none =>
            match env.testSSH x with
            | some _ => ([Event.sshProbe url repo.Origin.SSHKey], true)
            | none => ([Event.sshProbe url repo.Origin.SSHKey], false)
      else ([], false)
    if probe.2 = true then (probe.1, CloneResult.fatal)
    else
      match env.remList x with
      | some e => (probe.1 ++ [Event.listRemote url auth], CloneResult.failed e)
      | none =>
        match env.plainClone x with
        | some e =>
          (probe.1 ++ [Event.listRemote url auth,
            Event.plainClone repo.Name url bare auth (some e)], CloneResult.failed e)
        | none =>
          (probe.1 ++ [Event.listRemote url auth,
            Event.plainClone repo.Name url bare auth none], CloneResult.ok)

/-- `updateRepository` on attempt `x`.  In the branch for a non-bare repository
`w, err := r.Worktree()` declares a second `err`; the result of `w.Pull` is
assigned to that one, and the final `return err` returns the outer `err`, which
is still the nil of the successful `PlainOpen`. -/
def updateRepository (env : Env) (repoPath : String) (auth : AuthMethod) (dry bare : Bool)
    (x : Nat) : List Event × Option String :=
  match env.plainOpen x with
  | some e => ([Event.plainOpen repoPath], some e)
  | none =>
    let err : Option String := none
    if dry = false then
      if bare = true then
        ([Event.plainOpen repoPath, Event.fetch repoPath auth], env.fetch x)
      else
        match env.worktree x with
        | some e => ([Event.plainOpen repoPath], some e)
        | none =>
          ([Event.plainOpen repoPath, Event.pull repoPath auth (env.pull x)], err)
    else ([Event.plainOpen repoPath], err)

/-- What one pass through the first half of the loop body (lines 98-196) does
to the control flow: `continue`, `break`, fall through to the archive and
retention blocks, `log.Fatal`, or a nil dereference. -/
inductive Flow where
  | next
  | stop
  | through
  | exit
  | panic
deriving DecidableEq, Repr

/-- Lines 98-196 of `Locally`: attempt number `x`. -/
def syncAttempt (env : Env) (repo : Repo) (l : Local) (dry : Bool) (auth : AuthMethod)
    (x : Nat) : List Event × Flow :=
  match env.statRepo x with
  | StatResult.notExist =>
    let c := cloneRepository env repo auth dry l.Bare x
    match c.2 with
    | CloneResult.fatal => (Event.statRepo repo.Name :: c.1, Flow.exit)
    | CloneResult.ok => (Event.statRepo repo.Name :: c.1, Flow.through)
    | CloneResult.failed msg =>
      if msg = "repository not found" then (Event.statRepo repo.Name :: c.1, Flow.stop)
      else if x = tries then (Event.statRepo repo.Name :: c.1, Flow.stop)
      else if strContains msg "ERR access denied or repository not exported" = true then
        (Event.statRepo repo.Name :: c.1, Flow.stop)
      else if strContains msg "remote repository is empty" = true then
        (Event.statRepo repo.Name :: c.1, Flow.stop)
      else (Event.statRepo repo.Name :: c.1 ++ [Event.sleep retryDelay], Flow.next)
  | StatResult.failed => ([Event.statRepo repo.Name], Flow.panic)
  | StatResult.file => ([Event.statRepo repo.Name], Flow.through)
  | StatResult.dir =>
    let u := updateRepository env repo.Name auth dry l.Bare x
    match u.2 with
    | none => (Event.statRepo repo.Name :: u.1, Flow.through)
    | some msg =>
      if strContains msg "already up-to-date" = true then
        (Event.statRepo repo.Name :: u.1, Flow.through)
      else if x = tries then (Event.statRepo repo.Name :: u.1, Flow.exit)
      else
        (Event.statRepo repo.Name :: u.1 ++ [Event.removeAll repo.Name, Event.sleep retryDelay],
          Flow.next)

/-- Lines 197-240 of `Locally`: the archive block.  Each of the three errors is
only logged; the calls after it are made all the same. -/
def archiveStep (env : Env) (repo : Repo) (l : Local) : List Event :=
  if l.Compression ≠ "" then
    let file_suffix := getCompressedArchiveSuffix l.Compression
    [Event.filesFromDisk repo.Name env.filesFromDisk,
     Event.create (repo.Name ++ file_suffix) env.create,
     Event.archive (getArchiverFmt l.Compression) (repo.Name ++ file_suffix) env.archive,
     Event.removeAll repo.Name]
  else []

/-- Lines 254-272 of `Locally`: the scan of the directory listing.  The first
component is the slice `keep`, the second the names a "couldn't parse
timestamp" warning was logged for. -/
def pruneScan (compression : String) : List String → List String × List String
  | [] => ([], [])
  | file :: rest =>
    let file_suffix := getCompressedArchiveSuffix compression
    let fname := if compression ≠ "" then trimSuffix file file_suffix else file
    let r := pruneScan compression rest
    let warned := if parseIntOk fname = true then r.2 else file :: r.2
    if compression ≠ "" ∧ hasSuffix file file_suffix = false then (r.1, warned)
    else (file :: r.1, warned)

/-- `sort.Sort(sort.Reverse(sort.StringSlice(keep)))`: descending order of Go's
string comparison. -/
def sortReverse (keep : List String) : List String :=
  keep.insertionSort (fun a b => b.data ≤ a.data)

instance : IsTotal String (fun a b => b.data ≤ a.data) :=
  ⟨fun a b => le_total b.data a.data⟩

instance : IsTrans String (fun a b => b.data ≤ a.data) :=
  ⟨fun _ _ _ hab hbc => le_trans hbc hab⟩

/-- Lines 274-277 of `Locally`: the names in `toremove`. -/
def pruneRemove (l : Local) (files : List String) : List String :=
  let keep := sortReverse (pruneScan l.Compression files).1
  if (keep.length : Int) > l.Keep then keep.drop l.Keep.toNat else []

/-- Lines 242-292 of `Locally`: the retention block; the flag says whether it
left the loop with `break` (the listing failed). -/
def pruneStep (env : Env) (repo : Repo) (l : Local) : List Event × Bool :=
  if l.Keep > 0 then
    let parentdir := pathDir repo.Name
    match env.readDir with
    | Except.error _ => ([Event.readDir parentdir], true)
    | Except.ok files =>
      (Event.readDir parentdir ::
        (pruneRemove l files).map (fun file => Event.removeAll (pathJoin [parentdir, file])),
       false)
  else ([], false)

/-- Puts the events of an earlier part of the call in front of a result. -/
def Result.after (ev : List Event) (r : Result) : Result :=
  { r with trace := ev ++ r.trace }

/-- The `for x := 1; x <= tries; x++` loop of `Locally` (lines 97-295), entered
with the loop variable at `x`; `fuel` bounds the number of iterations the model
will run. -/
def retryLoop (env : Env) (repo : Repo) (l : Local) (dry : Bool) (auth : AuthMethod) :
    Nat → Nat → Result
  | 0, x => if x ≤ tries then ⟨Outcome.outOfFuel, []⟩ else ⟨Outcome.returned true, []⟩
  | fuel + 1, x =>
    if x ≤ tries then
      let a := syncAttempt env repo l dry auth x
      match a.2 with
      | Flow.next => (retryLoop env repo l dry auth fuel (x + 1)).after a.1
      | Flow.stop => ⟨Outcome.returned true, a.1⟩
      | Flow.exit => ⟨Outcome.exited, a.1⟩
      | Flow.panic => ⟨Outcome.panicked, a.1⟩
      | Flow.through =>
        let p := pruneStep env repo l
        if p.2 = true then ⟨Outcome.returned true, a.1 ++ archiveStep env repo l ++ p.1⟩
        else (retryLoop env repo l dry auth fuel (5 + 1)).after
          (a.1 ++ archiveStep env repo l ++ p.1)
    else ⟨Outcome.returned true, []⟩

/-- `Locally(repo, l, dry)`. -/
def Locally (env : Env) (repo : Repo) (l : Local) (dry : Bool) : Result :=
  let repo := { repo with Name := targetName repo l env.now }
  match setupDest env l dry with
  | Except.error ev => ⟨Outcome.returned false, ev⟩
  | Except.ok ev =>
    match selectAuth env repo with
    | Except.error _ => ⟨Outcome.returned false, ev⟩
    | Except.ok (repo, auth) => (retryLoop env repo l dry auth tries 1).after ev

/-- One line of the known-hosts file: the host name, the remote address and
the public key recorded for them. -/
structure KnownHost where
  host : String
  remote : String
  key : String
deriving DecidableEq, Repr

/-- Answers of the trust-store calls of `goph`, given the lines of the file.
`checkKnownHost` is `(hostFound, err)` as lines 423-425 describe it:
`hostFound` says the host is in the file, `err` is non-nil when the key is not
in the file or the host is there with another key.  `addKnownHost` is the error
of the append. -/
structure HostEnv where
  checkKnownHost : List KnownHost → String → String → String → Bool × Option String
  addKnownHost : List KnownHost → String → String → String → Option String

/-- `VerifyHost(host, remote, key)` on a known-hosts file with the lines
`store`: the returned error and the lines of the file afterwards.  A
successful `goph.AddKnownHost` appends one line; the check for a known host
with a changed key is commented out in the source (lines 429-433). -/
def VerifyHost (henv : HostEnv) (store : List KnownHost) (host remote key : String) :
    Option String × List KnownHost :=
  let found := henv.checkKnownHost store host remote key
  if found.1 = true ∧ found.2 = none then (none, store)
  else
    match henv.addKnownHost store host remote key with
    | none => (none, store ++ [⟨host, remote, key⟩])
    | some e => (some e, store)

/-! ## Specification vocabulary -/

/-- A single ordinary path element: not empty, no slash, neither `.` nor `..`. -/
def PlainSegment (s : String) : Prop :=
  s.data ≠ [] ∧ '/' ∉ s.data ∧ s.data ≠ ['.'] ∧ s.data ≠ ['.', '.']

instance (s : String) : Decidable (PlainSegment s) := by
  unfold PlainSegment; infer_instance

/-- The events that mark the retry rhythm: the `os.Stat(repo.Name)` that opens
an attempt, and a sleep. -/
def Event.isAttemptOrSleep : Event → Bool
  | Event.statRepo _ => true
  | Event.sleep _ => true
  | _ => false

/-- The event is a `time.Sleep`. -/
def Event.isSleep : Event → Bool
  | Event.sleep _ => true
  | _ => false

/-- The event is the `os.Stat(repo.Name)` that opens an attempt. -/
def Event.isAttempt : Event → Bool
  | Event.statRepo _ => true
  | _ => false

/-- The credentials an event hands to the git transport, if it hands any. -/
def Event.auth? : Event → Option AuthMethod
  | Event.listRemote _ auth => some auth
  | Event.plainClone _ _ _ auth _ => some auth
  | Event.fetch _ auth => some auth
  | Event.pull _ auth _ => some auth
  | _ => none

/-- The credentials the `switch` of lines 70-95 picks, read off the descriptor
in the order the specification lists them; `key` is the SSH key path in use. -/
def chosenAuth (repo : Repo) (key : String) : AuthMethod :=
  if repo.Origin.SSH = true then AuthMethod.publicKeys "git" key
  else if repo.Token ≠ "" then AuthMethod.basicAuth "xyz" repo.Token
  else if repo.Origin.Username ≠ "" ∧ repo.Origin.Password ≠ "" then
    AuthMethod.basicAuth repo.Origin.Username repo.Origin.Password
  else AuthMethod.none

/-- The SSH key path in use: the given one, or `$HOME/.ssh/id_rsa`. -/
def keyPath (env : Env) (repo : Repo) : String :=
  if repo.Origin.SSHKey = "" then pathJoin [env.home, ".ssh", "id_rsa"] else repo.Origin.SSHKey

/-- An entry the retention block takes into consideration, in the words of the
specification: every entry when compression is off, the entries that carry the
archive suffix when it is on.  Whether the name parses as a number plays no
part. -/
def validEntry (compression : String) (name : String) : Bool :=
  compression = "" ∨ hasSuffix name (getCompressedArchiveSuffix compression) = true

/-- The children of the snapshot directory once every `os.RemoveAll` of the
retention block has succeeded: the listing without the removed names. -/
def listingAfter (files removed : List String) : List String :=
  files.filter (fun f => f ∉ removed)

/-- The valid entries still in the snapshot directory after the retention
block. -/
def keptEntries (l : Local) (files : List String) : List String :=
  (listingAfter files (pruneRemove l files)).filter (validEntry l.Compression)

/-- The event changes the file system: it creates, writes or deletes a
directory or file (a clone that failed leaves nothing behind). -/
def Event.mutates : Event → Bool
  | Event.mkdirAll _ => true
  | Event.plainClone _ _ _ _ err => err.isNone
  | Event.fetch _ _ => true
  | Event.pull _ _ _ => true
  | Event.removeAll _ => true
  | Event.create _ _ => true
  | Event.archive _ _ _ => true
  | _ => false

/-- The number a string of decimal digits stands for, most significant digit
first (the value `strconv.ParseInt` computes for it). -/
def decimalValue (digits : List Char) : Nat :=
  digits.foldl (fun acc c => 10 * acc + (c.toNat - '0'.toNat)) 0

/-- The string the retention block hands to `strconv.ParseInt` for an entry
(`fname`, lines 256-259): the name without the archive suffix when compression
is on, the name itself otherwise. -/
def entryStem (compression : String) (name : String) : String :=
  if compression ≠ "" then trimSuffix name (getCompressedArchiveSuffix compression) else name

/-- The timestamp an entry is named by. -/
def timestampOf (compression : String) (name : String) : Nat :=
  decimalValue (entryStem compression name).data

/-- The entry is named by a decimal timestamp of `w` digits (followed by the
archive suffix when compression is on). -/
def IsTimestampName (w : Nat) (compression : String) (name : String) : Prop :=
  (entryStem compression name).data.length = w ∧
    (entryStem compression name).data.all Char.isDigit = true

instance (w : Nat) (compression name : String) :
    Decidable (IsTimestampName w compression name) := by
  unfold IsTimestampName; infer_instance

/-! ## Concrete inputs -/

/-- A world in which the destination is a directory, nothing is cloned yet and
every call succeeds; the snapshot directory lists five archives and a stray
entry. -/
def calmEnv : Env :=
  { now := 500, home := "/home/u", statPath := StatResult.dir, mkdirAll := none,
    statPathAgain := StatResult.dir, chdir := none, loadKey := fun _ => none,
    statRepo := fun _ => StatResult.notExist, getValues := fun _ => none,
    gophKey := fun _ => none, testSSH := fun _ => none, remList := fun _ => none,
    plainClone := fun _ => none, plainOpen := fun _ => none, fetch := fun _ => none,
    worktree := fun _ => none, pull := fun _ => none, filesFromDisk := none,
    create := none, archive := none,
    readDir := Except.ok ["100.zip", "200.zip", "300.zip", "400.zip", "500.zip", "notes"] }

/-- A repository reached over HTTPS with a token. -/
def tokenRepo : Repo :=
  { Name := "proj", URL := "https://git.example/alice/proj.git",
    SSHURL := "git@git.example:alice/proj.git", Token := "t0k3n", Hoster := "git.example",
    Owner := "alice", Origin := { SSH := false, SSHKey := "", Username := "alice", Password := "pw" } }

/-- A flat, non-bare destination without snapshots or compression. -/
def plainLocal : Local :=
  { Path := "/backup", Structured := false, Bare := false, Keep := 0, Compression := "" }

/-- A structured, bare destination that keeps three zip snapshots. -/
def snapshotLocal : Local :=
  { Path := "/backup", Structured := true, Bare := true, Keep := 3, Compression := "zip" }

/-- A flat, non-bare destination that zips the working copy. -/
def zipLocal : Local :=
  { Path := "/backup", Structured := false, Bare := false, Keep := 0, Compression := "zip" }

/-- The calm world, but the local copy is already there. -/
def staleEnv : Env :=
  { calmEnv with statRepo := fun _ => StatResult.dir }

/-- The local copy is there and opens, and every pull is refused. -/
def pullFailsEnv : Env :=
  { staleEnv with pull := fun _ => some "authentication required" }

/-- A bare local copy is there on the first attempt, and every fetch is
refused. -/
def fetchFailsEnv : Env :=
  { calmEnv with
    statRepo := fun x => if x = 1 then StatResult.dir else StatResult.notExist,
    fetch := fun _ => some "authentication required" }

/-- A flat, bare destination without snapshots or compression. -/
def bareLocal : Local :=
  { Path := "/backup", Structured := false, Bare := true, Keep := 0, Compression := "" }

/-- The local copy is there but is no repository, and removing it does not
help: every attempt finds the directory again and fails to open it. -/
def brokenCopyEnv : Env :=
  { staleEnv with plainOpen := fun _ => some "repository does not exist" }

/-- The SSH server cannot be reached. -/
def sshDownEnv : Env :=
  { calmEnv with testSSH := fun _ => some "dial tcp: connection refused" }

/-- A repository reached over SSH with the default key. -/
def sshRepo : Repo :=
  { tokenRepo with Token := "", Origin := { SSH := true, SSHKey := "", Username := "", Password := "" } }

/-- The remote cannot be listed on the first four attempts; by the fifth the
local copy is there and the fetch finds nothing new. -/
def lateCopyEnv : Env :=
  { calmEnv with
    statRepo := fun x => if x = 5 then StatResult.dir else StatResult.notExist,
    remList := fun _ => some "read: connection reset by peer",
    fetch := fun _ => some "already up-to-date" }

/-- The target path is taken by a plain file. -/
def fileEnv : Env :=
  { calmEnv with statRepo := fun _ => StatResult.file }

/-- Cloning works, writing the archive does not. -/
def diskFullEnv : Env :=
  { calmEnv with archive := some "write proj.zip: no space left on device" }

/-- The remote does not know the repository. -/
def notFoundEnv : Env :=
  { calmEnv with remList := fun _ => some "repository not found" }

/-- A trust store that answers from the lines of the file: the host is found
when a line names it, the key is accepted when such a line carries it, and an
append always succeeds. -/
def fileHostEnv : HostEnv :=
  { checkKnownHost := fun store host _ key =>
      (store.any (fun line => line.host = host),
        if store.any (fun line => line.host = host ∧ line.key = key) then none
        else if store.any (fun line => line.host = host) then
          some "knownhosts: key mismatch"
        else some "knownhosts: key is unknown"),
    addKnownHost := fun _ _ _ _ => none }

/-- A known-hosts file with one line for `git.example`. -/
def pinnedStore : List KnownHost :=
  [⟨"git.example", "203.0.113.7:22", "ssh-ed25519 AAAA-first"⟩]

/-! ## Facts about the path helpers -/

theorem cleanStep_foldl_plain (segs stack : List (List Char))
    (h : ∀ s ∈ segs, s ≠ ['.', '.']) :
    segs.foldl (cleanStep false) stack = segs.reverse ++ stack := by
  induction segs generalizing stack with
  | nil => simp
  | cons s rest ih =>
    have hs : s ≠ ['.', '.'] := h s (List.mem_cons_self _ _)
    have hrest : ∀ t ∈ rest, t ≠ ['.', '.'] := fun t ht => h t (List.mem_cons_of_mem _ ht)
    simp [List.foldl_cons, cleanStep, hs, ih _ hrest]

theorem intercalate_ne_nil (segs : List (List Char)) (hne : segs ≠ [])
    (h : ∀ s ∈ segs, s ≠ []) : List.intercalate ['/'] segs ≠ [] := by
  cases segs with
  | nil => exact absurd rfl hne
  | cons s rest =>
    have hs : s ≠ [] := h s (List.mem_cons_self _ _)
    cases rest with
    | nil => simpa [List.intercalate] using hs
    | cons t rest => simp [List.intercalate, hs]

theorem intercalate_head (segs : List (List Char)) (hne : segs ≠ [])
    (h : ∀ s ∈ segs, s ≠ [] ∧ '/' ∉ s) :
    (List.intercalate ['/'] segs).head? ≠ some '/' := by
  cases segs with
  | nil => exact absurd rfl hne
  | cons s rest =>
    obtain ⟨hs, hslash⟩ := h s (List.mem_cons_self _ _)
    cases s with
    | nil => exact absurd rfl hs
    | cons c cs =>
      have hc : c ≠ '/' := fun hc => hslash (by simp [hc])
      cases rest with
      | nil => simpa [List.intercalate] using hc
      | cons t rest => simpa [List.intercalate] using hc

/-- `path.Clean` leaves a slash-joined list of plain elements as it is. -/
theorem cleanChars_intercalate (segs : List (List Char)) (hne : segs ≠ [])
    (h : ∀ s ∈ segs, s ≠ [] ∧ '/' ∉ s ∧ s ≠ ['.'] ∧ s ≠ ['.', '.']) :
    cleanChars (List.intercalate ['/'] segs) = List.intercalate ['/'] segs := by
  have h1 : List.intercalate ['/'] segs ≠ [] :=
    intercalate_ne_nil segs hne (fun s hs => (h s hs).1)
  have h2 : (List.intercalate ['/'] segs).head? ≠ some '/' :=
    intercalate_head segs hne (fun s hs => ⟨(h s hs).1, (h s hs).2.1⟩)
  have h3 : (List.intercalate ['/'] segs).splitOn '/' = segs :=
    List.splitOn_intercalate segs '/' (fun s hs => (h s hs).2.1) hne
  have h4 : segs.filter (fun el => decide (el ≠ [] ∧ el ≠ ['.'])) = segs := by
    rw [List.filter_eq_self]
    intro s hs
    have := h s hs
    simp [this.1, this.2.2.1]
  have h5 : segs.foldl (cleanStep false) [] = segs.reverse := by
    simpa using cleanStep_foldl_plain segs [] (fun s hs => (h s hs).2.2.2)
  unfold cleanChars
  simp only [h1, h2, h3, h4, h5, List.reverse_reverse, if_false, decide_False,
    Bool.false_eq_true]

theorem digitChar_plain : ∀ d, d < 10 → Nat.digitChar d ≠ '/' ∧ Nat.digitChar d ≠ '.' := by
  decide

theorem toDigitsCore_chars (fuel : Nat) : ∀ (n : Nat) (ds : List Char),
    (∀ c ∈ ds, c ≠ '/' ∧ c ≠ '.') →
    ∀ c ∈ Nat.toDigitsCore 10 fuel n ds, c ≠ '/' ∧ c ≠ '.' := by
  induction fuel with
  | zero => intro n ds h c hc; exact h c (by simpa [Nat.toDigitsCore] using hc)
  | succ fuel ih =>
    intro n ds h c hc
    have hd : ∀ c ∈ Nat.digitChar (n % 10) :: ds, c ≠ '/' ∧ c ≠ '.' := by
      intro c hc
      rcases List.mem_cons.mp hc with rfl | hc
      · exact digitChar_plain _ (Nat.mod_lt _ (by decide))
      · exact h c hc
    simp only [Nat.toDigitsCore] at hc
    split at hc
    · exact hd c hc
    · exact ih _ _ hd c hc

theorem toDigitsCore_ne_nil (fuel : Nat) : ∀ (n : Nat) (ds : List Char),
    ds ≠ [] → Nat.toDigitsCore 10 fuel n ds ≠ [] := by
  induction fuel with
  | zero => intro n ds h; simpa [Nat.toDigitsCore] using h
  | succ fuel ih =>
    intro n ds _
    simp only [Nat.toDigitsCore]
    split
    · simp
    · exact ih _ _ (by simp)

theorem repr_chars (n : Nat) : ∀ c ∈ (Nat.repr n).data, c ≠ '/' ∧ c ≠ '.' := by
  intro c hc
  exact toDigitsCore_chars (n + 1) n [] (by simp) c
    (by simpa [Nat.repr, Nat.toDigits, List.asString] using hc)

theorem repr_ne_nil (n : Nat) : (Nat.repr n).data ≠ [] := by
  have h : Nat.toDigitsCore 10 (n + 1) n [] ≠ [] := by
    simp only [Nat.toDigitsCore]
    split
    · simp
    · exact toDigitsCore_ne_nil _ _ _ (by simp)
  simpa [Nat.repr, Nat.toDigits, List.asString] using h

/-- The decimal rendering of an integer is a plain path element. -/
theorem sprintInt_plain (n : Int) : PlainSegment (sprintInt n) := by
  have key : ∀ cs : List Char, cs ≠ [] → (∀ c ∈ cs, c ≠ '/' ∧ c ≠ '.') →
      cs ≠ [] ∧ '/' ∉ cs ∧ cs ≠ ['.'] ∧ cs ≠ ['.', '.'] := by
    intro cs hne h
    refine ⟨hne, fun hm => (h _ hm).1 rfl, ?_, ?_⟩
    · intro hEq; exact (h '.' (by simp [hEq])).2 rfl
    · intro hEq; exact (h '.' (by simp [hEq])).2 rfl
  unfold PlainSegment sprintInt
  split
  · refine key _ (by simp) ?_
    intro c hc
    simp only [String.data_append, List.mem_append] at hc
    rcases hc with hc | hc
    · have : c = '-' := by simpa using hc
      subst this; decide
    · exact repr_chars _ c hc
  · exact key _ (repr_ne_nil _) (repr_chars _)

theorem intercalate_snoc (segs : List (List Char)) (hne : segs ≠ []) (t : List Char) :
    List.intercalate ['/'] (segs ++ [t]) = List.intercalate ['/'] segs ++ '/' :: t := by
  induction segs with
  | nil => exact absurd rfl hne
  | cons s rest ih =>
    cases rest with
    | nil => simp [List.intercalate]
    | cons u rest =>
      have := ih (by simp)
      simp only [List.intercalate, List.cons_append, List.intersperse_cons_cons,
        List.flatten_cons, List.append_assoc] at this ⊢
      rw [this]

theorem joinBuf_pair (p t : String) (hp : p.data ≠ []) :
    joinBuf [] [p, t] = p.data ++ '/' :: t.data := by
  have hp2 : p ≠ "" := fun h => hp (by simp [h])
  simp [joinBuf, hp, hp2]

theorem length_sum_ne_zero (p : String) (rest : List String) (hp : p.data ≠ []) :
    ((p :: rest).map String.length).sum ≠ 0 := by
  have : 0 < p.length := by
    cases p with
    | mk d => cases d with
      | nil => exact absurd rfl hp
      | cons c cs => simp [String.length]
  simp only [List.map_cons, List.sum_cons]
  omega

/-- `path.Join` of a clean path of plain elements and one more plain element
puts a single slash between them. -/
theorem pathJoin_snoc (p t : String) (segs : List (List Char)) (hne : segs ≠ [])
    (hp : p.data = List.intercalate ['/'] segs)
    (h : ∀ s ∈ segs, s ≠ [] ∧ '/' ∉ s ∧ s ≠ ['.'] ∧ s ≠ ['.', '.'])
    (ht : PlainSegment t) :
    (pathJoin [p, t]).data = p.data ++ '/' :: t.data := by
  have hpne : p.data ≠ [] := by
    rw [hp]; exact intercalate_ne_nil segs hne (fun s hs => (h s hs).1)
  unfold pathJoin
  rw [if_neg (length_sum_ne_zero p [t] hpne), joinBuf_pair p t hpne]
  show cleanChars (p.data ++ '/' :: t.data) = _
  rw [hp, ← intercalate_snoc segs hne]
  apply cleanChars_intercalate _ (by simp)
  intro s hs
  rcases List.mem_append.mp hs with hs | hs
  · exact h s hs
  · have : s = t.data := by simpa using hs
    subst this; exact ht

/-- `path.Join` of three plain elements puts single slashes between them. -/
theorem pathJoin_triple (a b c : String) (ha : PlainSegment a) (hb : PlainSegment b)
    (hc : PlainSegment c) :
    (pathJoin [a, b, c]).data = List.intercalate ['/'] [a.data, b.data, c.data] := by
  have ha2 : a ≠ "" := fun h => ha.1 (by simp [h])
  unfold pathJoin
  rw [if_neg (length_sum_ne_zero a [b, c] ha.1)]
  have hbuf : joinBuf [] [a, b, c] = List.intercalate ['/'] [a.data, b.data, c.data] := by
    simp [joinBuf, ha.1, ha2, List.intercalate]
  show cleanChars (joinBuf [] [a, b, c]) = _
  rw [hbuf]
  apply cleanChars_intercalate _ (by simp)
  intro s hs
  simp only [List.mem_cons, List.mem_singleton, List.not_mem_nil, or_false] at hs
  rcases hs with rfl | rfl | rfl
  · exact ha
  · exact hb
  · exact hc

/-- Appending `.git` to a plain element gives a plain element. -/
theorem plain_append_git (s : List Char)
    (h : s ≠ [] ∧ '/' ∉ s ∧ s ≠ ['.'] ∧ s ≠ ['.', '.']) :
    (s ++ ".git".data) ≠ [] ∧ '/' ∉ (s ++ ".git".data) ∧ (s ++ ".git".data) ≠ ['.'] ∧
      (s ++ ".git".data) ≠ ['.', '.'] := by
  refine ⟨by simp, ?_, ?_, ?_⟩
  · intro hm
    rcases List.mem_append.mp hm with hm | hm
    · exact h.2.1 hm
    · revert hm; decide
  · intro hEq
    have := congrArg List.length hEq
    simp at this
  · intro hEq
    have := congrArg List.length hEq
    simp at this

/-- The literal shape of the target name when its parts are plain elements. -/
theorem targetName_plain (repo : Repo) (l : Local) (unix : Int)
    (hn : PlainSegment repo.Name)
    (hs : l.Structured = true → PlainSegment repo.Hoster ∧ PlainSegment repo.Owner) :
    targetName repo l unix =
      (if l.Structured = true then repo.Hoster ++ "/" ++ repo.Owner ++ "/" ++ repo.Name
        else repo.Name)
      ++ (if l.Bare = true then ".git" else "")
      ++ (if l.Keep > 0 then "/" ++ sprintInt unix else "") := by
  have hts := sprintInt_plain unix
  have hgit := plain_append_git repo.Name.data hn
  apply String.ext
  unfold targetName
  by_cases hS : l.Structured = true
  · obtain ⟨hh, ho⟩ := hs hS
    have h3 := pathJoin_triple _ _ _ hh ho hn
    by_cases hB : l.Bare = true
    · by_cases hK : l.Keep > 0
      · simp only [hS, hB, hK, if_true]
        rw [pathJoin_snoc _ _ [repo.Hoster.data, repo.Owner.data, repo.Name.data ++ ".git".data]
          (by simp) (by simp [h3, List.intercalate]) _ hts]
        · simp [h3, List.intercalate]
        · intro s hs
          simp only [List.mem_cons, List.mem_singleton, List.not_mem_nil, or_false] at hs
          rcases hs with rfl | rfl | rfl
          · exact hh
          · exact ho
          · exact hgit
      · simp [hS, hB, hK, h3, List.intercalate]
    · by_cases hK : l.Keep > 0
      · simp only [hS, hB, hK, if_true]
        rw [pathJoin_snoc _ _ [repo.Hoster.data, repo.Owner.data, repo.Name.data]
          (by simp) (by simp [h3]) _ hts]
        · simp [h3, List.intercalate]
        · intro s hs
          simp only [List.mem_cons, List.mem_singleton, List.not_mem_nil, or_false] at hs
          rcases hs with rfl | rfl | rfl
          · exact hh
          · exact ho
          · exact hn
      · simp [hS, hB, hK, h3, List.intercalate]
  · by_cases hB : l.Bare = true
    · by_cases hK : l.Keep > 0
      · simp only [hS, hB, hK, if_true]
        rw [pathJoin_snoc _ _ [repo.Name.data ++ ".git".data]
          (by simp) (by simp [List.intercalate]) _ hts]
        · simp
        · intro s hs
          have : s = repo.Name.data ++ ".git".data := by simpa using hs
          subst this; exact hgit
      · simp [hS, hB, hK]
    · by_cases hK : l.Keep > 0
      · simp only [hS, hB, hK, if_true]
        rw [pathJoin_snoc _ _ [repo.Name.data]
          (by simp) (by simp [List.intercalate]) _ hts]
        · simp
        · intro s hs
          have : s = repo.Name.data := by simpa using hs
          subst this; exact hn
      · simp [hS, hB, hK]

/-! ## Facts about the retry loop -/

theorem cloneRepository_rhythm (env : Env) (repo : Repo) (auth : AuthMethod) (dry bare : Bool)
    (x : Nat) : (cloneRepository env repo auth dry bare x).1.filter Event.isAttemptOrSleep = [] := by
  unfold cloneRepository
  repeat' split
  all_goals simp_all [Event.isAttemptOrSleep]
  all_goals (repeat' split) <;> simp_all [Event.isAttemptOrSleep]

theorem updateRepository_rhythm (env : Env) (p : String) (auth : AuthMethod) (dry bare : Bool)
    (x : Nat) : (updateRepository env p auth dry bare x).1.filter Event.isAttemptOrSleep = [] := by
  unfold updateRepository
  repeat' split
  all_goals simp [Event.isAttemptOrSleep]

theorem archiveStep_rhythm (env : Env) (repo : Repo) (l : Local) :
    (archiveStep env repo l).filter Event.isAttemptOrSleep = [] := by
  unfold archiveStep
  split <;> simp [Event.isAttemptOrSleep]

theorem pruneStep_rhythm (env : Env) (repo : Repo) (l : Local) :
    (pruneStep env repo l).1.filter Event.isAttemptOrSleep = [] := by
  unfold pruneStep
  repeat' split
  all_goals simp [Event.isAttemptOrSleep, List.filter_map, Function.comp_def]

/-- One attempt starts with its `os.Stat`, and sleeps exactly once, at its end,
exactly when it is followed by another attempt. -/
theorem syncAttempt_rhythm (env : Env) (repo : Repo) (l : Local) (dry : Bool) (auth : AuthMethod)
    (x : Nat) :
    ((syncAttempt env repo l dry auth x).2 = Flow.next ∧
      (syncAttempt env repo l dry auth x).1.filter Event.isAttemptOrSleep =
        [Event.statRepo repo.Name, Event.sleep retryDelay]) ∨
    ((syncAttempt env repo l dry auth x).2 ≠ Flow.next ∧
      (syncAttempt env repo l dry auth x).1.filter Event.isAttemptOrSleep =
        [Event.statRepo repo.Name]) := by
  have hc := cloneRepository_rhythm env repo auth dry l.Bare x
  have hu := updateRepository_rhythm env repo.Name auth dry l.Bare x
  unfold syncAttempt
  generalize cloneRepository env repo auth dry l.Bare x = c at hc ⊢
  generalize updateRepository env repo.Name auth dry l.Bare x = u at hu ⊢
  obtain ⟨cev, cres⟩ := c
  obtain ⟨uev, ures⟩ := u
  simp only at hc hu
  cases env.statRepo x with
  | notExist =>
    cases cres with
    | ok => simp [Event.isAttemptOrSleep, hc]
    | fatal => simp [Event.isAttemptOrSleep, hc]
    | failed msg =>
      simp only
      split_ifs <;> simp [Event.isAttemptOrSleep, hc, List.filter_append]
  | failed => simp [Event.isAttemptOrSleep]
  | file => simp [Event.isAttemptOrSleep]
  | dir =>
    cases ures with
    | none => simp [Event.isAttemptOrSleep, hu]
    | some msg =>
      simp only
      split_ifs <;> simp [Event.isAttemptOrSleep, hu, List.filter_append]

/-- An attempt is followed by another one only before the last try. -/
theorem syncAttempt_next (env : Env) (repo : Repo) (l : Local) (dry : Bool) (auth : AuthMethod)
    (x : Nat) (h : (syncAttempt env repo l dry auth x).2 = Flow.next) : x ≠ tries := by
  intro hx
  unfold syncAttempt at h
  generalize cloneRepository env repo auth dry l.Bare x = c at h
  generalize updateRepository env repo.Name auth dry l.Bare x = u at h
  obtain ⟨cev, cres⟩ := c
  obtain ⟨uev, ures⟩ := u
  cases hs : env.statRepo x <;> rw [hs] at h
  · cases cres with
    | ok => simp at h
    | fatal => simp at h
    | failed msg =>
      simp only at h
      split_ifs at h
  · simp at h
  · cases ures with
    | none => simp at h
    | some msg =>
      simp only at h
      split_ifs at h
  · simp at h

theorem retryLoop_past (env : Env) (repo : Repo) (l : Local) (dry : Bool) (auth : AuthMethod)
    (fuel x : Nat) (hx : tries < x) :
    retryLoop env repo l dry auth fuel x = ⟨Outcome.returned true, []⟩ := by
  cases fuel <;> simp [retryLoop, Nat.not_le.mpr hx]

theorem intersperse_replicate_succ (s a : Event) (n : Nat) (hn : 1 ≤ n) :
    List.intersperse s (List.replicate (n + 1) a) =
      a :: s :: List.intersperse s (List.replicate n a) := by
  obtain ⟨m, rfl⟩ : ∃ m, n = m + 1 := ⟨n - 1, by omega⟩
  simp [List.replicate_succ]

/-- The rhythm of the retry loop entered at `x ≤ tries` with enough fuel: between
one and `tries + 1 - x` attempts, one sleep between neighbours, and the fuel
is not used up. -/
theorem retryLoop_rhythm (env : Env) (repo : Repo) (l : Local) (dry : Bool) (auth : AuthMethod)
    (fuel : Nat) : ∀ x, x ≤ tries → tries + 1 ≤ x + fuel →
    (retryLoop env repo l dry auth fuel x).outcome ≠ Outcome.outOfFuel ∧
    ∃ n, 1 ≤ n ∧ n + x ≤ tries + 1 ∧
      (retryLoop env repo l dry auth fuel x).trace.filter Event.isAttemptOrSleep =
        List.intersperse (Event.sleep retryDelay) (List.replicate n (Event.statRepo repo.Name)) := by
  induction fuel with
  | zero => intro x hx hf; omega
  | succ fuel ih =>
    intro x hx hf
    have hpast := retryLoop_past env repo l dry auth fuel (5 + 1) (by decide)
    have hnext := syncAttempt_next env repo l dry auth x
    have hpr := pruneStep_rhythm env repo l
    have har := archiveStep_rhythm env repo l
    rcases syncAttempt_rhythm env repo l dry auth x with ⟨hflow, hev⟩ | ⟨hflow, hev⟩
    · have hx2 : x + 1 ≤ tries := by
        have := hnext hflow
        omega
      obtain ⟨hout, n, hn1, hn2, htr⟩ := ih (x + 1) hx2 (by omega)
      refine ⟨?_, n + 1, by omega, by omega, ?_⟩
      · simpa [retryLoop, hx, hflow, Result.after] using hout
      · rw [intersperse_replicate_succ _ _ _ hn1]
        simp [retryLoop, hx, hflow, Result.after, List.filter_append, hev, htr]
    · refine ⟨?_, 1, le_refl _, by omega, ?_⟩
      · simp only [retryLoop, hx, if_true]
        cases hfl : (syncAttempt env repo l dry auth x).2 with
        | next => exact absurd hfl hflow
        | stop => simp
        | exit => simp
        | panic => simp
        | through =>
          simp only
          split
          · simp
          · simp [hpast, Result.after]
      · simp only [retryLoop, hx, if_true]
        cases hfl : (syncAttempt env repo l dry auth x).2 with
        | next => exact absurd hfl hflow
        | stop => simpa using hev
        | exit => simpa using hev
        | panic => simpa using hev
        | through =>
          simp only
          split
          · simp [List.filter_append, hev, har, hpr]
          · simp [hpast, Result.after, List.filter_append, hev, har, hpr]

theorem selectAuth_name (env : Env) (repo repo2 : Repo) (auth : AuthMethod)
    (h : selectAuth env repo = Except.ok (repo2, auth)) : repo2.Name = repo.Name := by
  unfold selectAuth at h
  split at h
  · simp only at h
    split at h
    · simp at h
    · simp only [Except.ok.injEq, Prod.mk.injEq] at h
      rw [← h.1]
  · split at h
    · simp only [Except.ok.injEq, Prod.mk.injEq] at h
      rw [← h.1]
    · split at h <;>
      · simp only [Except.ok.injEq, Prod.mk.injEq] at h
        rw [← h.1]

/-- The events of `setupDest`, whichever way it ends. -/
theorem setupDest_rhythm (env : Env) (l : Local) (dry : Bool) :
    (match setupDest env l dry with
      | Except.ok ev => ev
      | Except.error ev => ev).filter Event.isAttemptOrSleep = [] := by
  unfold setupDest
  cases env.statPath <;> cases dry <;> cases env.mkdirAll <;> cases env.statPathAgain <;>
    cases env.chdir <;> simp [Event.isAttemptOrSleep]

theorem mem_rhythm (s a e : Event) (n : Nat)
    (h : e ∈ List.intersperse s (List.replicate n a)) : e = s ∨ e = a := by
  induction n with
  | zero => simp at h
  | succ n ih =>
    rcases Nat.eq_zero_or_pos n with rfl | hn
    · right; simpa using h
    · rw [intersperse_replicate_succ _ _ _ hn] at h
      simp only [List.mem_cons] at h
      rcases h with h | h | h
      · exact Or.inr h
      · exact Or.inl h
      · exact ih h

theorem rhythm_counts (d : Nat) (p : String) (n : Nat) :
    ((List.intersperse (Event.sleep d) (List.replicate n (Event.statRepo p))).filter
        Event.isAttempt).length = n ∧
    ((List.intersperse (Event.sleep d) (List.replicate n (Event.statRepo p))).filter
        Event.isSleep).length = n - 1 := by
  induction n with
  | zero => simp
  | succ n ih =>
    rcases Nat.eq_zero_or_pos n with rfl | hn
    · simp [Event.isAttempt, Event.isSleep]
    · rw [intersperse_replicate_succ _ _ _ hn]
      simp only [List.filter_cons, Event.isAttempt, Event.isSleep, if_true, List.length_cons,
        ih.1, ih.2, Bool.false_eq_true, if_false]
      exact ⟨trivial, by omega⟩

theorem filter_attempt_of_rhythm (t : List Event) :
    (t.filter Event.isAttemptOrSleep).filter Event.isAttempt = t.filter Event.isAttempt ∧
    (t.filter Event.isAttemptOrSleep).filter Event.isSleep = t.filter Event.isSleep := by
  constructor <;>
  · rw [List.filter_filter]
    congr 1
    funext e
    cases e <;> simp [Event.isAttemptOrSleep, Event.isAttempt, Event.isSleep]

/-- The rhythm of a whole call of `Locally`. -/
theorem Locally_rhythm (env : Env) (repo : Repo) (l : Local) (dry : Bool) :
    (Locally env repo l dry).outcome ≠ Outcome.outOfFuel ∧
    ∃ n, n ≤ 5 ∧
      (Locally env repo l dry).trace.filter Event.isAttemptOrSleep =
        List.intersperse (Event.sleep 5)
          (List.replicate n (Event.statRepo (targetName repo l env.now))) := by
  have hsetup := setupDest_rhythm env l dry
  unfold Locally
  cases hs : setupDest env l dry with
  | error ev =>
    rw [hs] at hsetup
    exact ⟨by simp, 0, by omega, by simpa using hsetup⟩
  | ok ev =>
    rw [hs] at hsetup
    simp only at hsetup ⊢
    cases ha : selectAuth env { repo with Name := targetName repo l env.now } with
    | error e => exact ⟨by simp, 0, by omega, by simpa using hsetup⟩
    | ok ra =>
      obtain ⟨repo2, auth⟩ := ra
      have hname := selectAuth_name env _ repo2 auth ha
      simp only at hname
      obtain ⟨hout, n, _, hn2, htr⟩ :=
        retryLoop_rhythm env repo2 l dry auth tries 1 (by decide) (by decide)
      refine ⟨by simpa [Result.after] using hout, n, by simp only [tries] at hn2; omega, ?_⟩
      simp only [Result.after, List.filter_append, hsetup, htr, hname, List.nil_append]
      rfl

/-- Every event of the retry loop comes from one of its attempts, from the
archive block or from the retention block. -/
theorem retryLoop_mem (env : Env) (repo : Repo) (l : Local) (dry : Bool) (auth : AuthMethod)
    (e : Event) (fuel : Nat) : ∀ x, e ∈ (retryLoop env repo l dry auth fuel x).trace →
    (∃ y, x ≤ y ∧ y ≤ tries ∧ e ∈ (syncAttempt env repo l dry auth y).1) ∨
      e ∈ archiveStep env repo l ∨ e ∈ (pruneStep env repo l).1 := by
  induction fuel with
  | zero =>
    intro x h
    simp only [retryLoop] at h
    split at h <;> simp at h
  | succ fuel ih =>
    intro x h
    simp only [retryLoop] at h
    split at h
    · rename_i hx
      have hpast := retryLoop_past env repo l dry auth fuel (5 + 1) (by decide)
      cases hfl : (syncAttempt env repo l dry auth x).2 <;> rw [hfl] at h <;> simp only at h
      · simp only [Result.after, List.mem_append] at h
        rcases h with h | h
        · exact Or.inl ⟨x, le_refl _, hx, h⟩
        · rcases ih (x + 1) h with ⟨y, hy1, hy2, hy3⟩ | h | h
          · exact Or.inl ⟨y, by omega, hy2, hy3⟩
          · exact Or.inr (Or.inl h)
          · exact Or.inr (Or.inr h)
      · exact Or.inl ⟨x, le_refl _, hx, h⟩
      · split at h
        · simp only [List.mem_append] at h
          rcases h with (h | h) | h
          · exact Or.inl ⟨x, le_refl _, hx, h⟩
          · exact Or.inr (Or.inl h)
          · exact Or.inr (Or.inr h)
        · simp only [hpast, Result.after, List.append_nil, List.mem_append] at h
          rcases h with (h | h) | h
          · exact Or.inl ⟨x, le_refl _, hx, h⟩
          · exact Or.inr (Or.inl h)
          · exact Or.inr (Or.inr h)
      · exact Or.inl ⟨x, le_refl _, hx, h⟩
      · exact Or.inl ⟨x, le_refl _, hx, h⟩
    · simp at h

theorem cloneRepository_auth (env : Env) (repo : Repo) (auth : AuthMethod) (dry bare : Bool)
    (x : Nat) : ∀ e ∈ (cloneRepository env repo auth dry bare x).1,
      e.auth? = none ∨ e.auth? = some auth := by
  unfold cloneRepository
  repeat' split
  all_goals simp_all [Event.auth?]
  all_goals (repeat' split) <;> simp_all [Event.auth?]

theorem updateRepository_auth (env : Env) (p : String) (auth : AuthMethod) (dry bare : Bool)
    (x : Nat) : ∀ e ∈ (updateRepository env p auth dry bare x).1,
      e.auth? = none ∨ e.auth? = some auth := by
  unfold updateRepository
  repeat' split
  all_goals simp [Event.auth?]

theorem syncAttempt_auth (env : Env) (repo : Repo) (l : Local) (dry : Bool) (auth : AuthMethod)
    (x : Nat) : ∀ e ∈ (syncAttempt env repo l dry auth x).1,
      e.auth? = none ∨ e.auth? = some auth := by
  have hc := cloneRepository_auth env repo auth dry l.Bare x
  have hu := updateRepository_auth env repo.Name auth dry l.Bare x
  intro e he
  unfold syncAttempt at he
  generalize cloneRepository env repo auth dry l.Bare x = c at hc he
  generalize updateRepository env repo.Name auth dry l.Bare x = u at hu he
  obtain ⟨cev, cres⟩ := c
  obtain ⟨uev, ures⟩ := u
  simp only at hc hu
  have key : ∀ (evs : List Event), (∀ e ∈ evs, e.auth? = none ∨ e.auth? = some auth) →
      ∀ (tl : List Event), (∀ e ∈ tl, e.auth? = none) →
      e ∈ Event.statRepo repo.Name :: evs ++ tl → e.auth? = none ∨ e.auth? = some auth := by
    intro evs hevs tl htl hmem
    simp only [List.cons_append, List.mem_cons, List.mem_append] at hmem
    rcases hmem with rfl | hmem | hmem
    · exact Or.inl rfl
    · exact hevs e hmem
    · exact Or.inl (htl e hmem)
  have key0 : ∀ (evs : List Event), (∀ e ∈ evs, e.auth? = none ∨ e.auth? = some auth) →
      e ∈ Event.statRepo repo.Name :: evs → e.auth? = none ∨ e.auth? = some auth := by
    intro evs hevs hmem
    exact key evs hevs [] (by simp) (by simpa using hmem)
  cases hst : env.statRepo x <;> rw [hst] at he <;> simp only at he
  · cases cres with
    | ok => exact key0 cev hc he
    | fatal => exact key0 cev hc he
    | failed msg =>
      simp only at he
      split_ifs at he
      · exact key0 cev hc he
      · exact key0 cev hc he
      · exact key0 cev hc he
      · exact key0 cev hc he
      · exact key cev hc _ (by simp [Event.auth?]) he
  · exact key0 [] (by simp) he
  · cases ures with
    | none => exact key0 uev hu he
    | some msg =>
      simp only at he
      split_ifs at he
      · exact key0 uev hu he
      · exact key0 uev hu he
      · exact key uev hu _ (by simp [Event.auth?]) he
  · exact key0 [] (by simp) he

theorem archiveStep_auth (env : Env) (repo : Repo) (l : Local) :
    ∀ e ∈ archiveStep env repo l, e.auth? = none := by
  intro e he
  unfold archiveStep at he
  split at he
  · simp only [List.mem_cons, List.mem_singleton, List.not_mem_nil, or_false] at he
    rcases he with rfl | rfl | rfl | rfl <;> rfl
  · simp at he

theorem pruneStep_auth (env : Env) (repo : Repo) (l : Local) :
    ∀ e ∈ (pruneStep env repo l).1, e.auth? = none := by
  intro e he
  unfold pruneStep at he
  split at he
  · split at he
    · have : e = Event.readDir (pathDir repo.Name) := by simpa using he
      subst this; rfl
    · simp only [List.mem_cons, List.mem_map] at he
      rcases he with rfl | ⟨f, _, rfl⟩ <;> rfl
  · simp at he

theorem setupDest_auth (env : Env) (l : Local) (dry : Bool) :
    ∀ e ∈ (match setupDest env l dry with
      | Except.ok ev => ev
      | Except.error ev => ev), e.auth? = none := by
  unfold setupDest
  cases env.statPath <;> cases dry <;> cases env.mkdirAll <;> cases env.statPathAgain <;>
    cases env.chdir <;> simp [Event.auth?]

/-- What `selectAuth` returns, case by case. -/
theorem selectAuth_eq (env : Env) (repo : Repo) :
    selectAuth env repo =
      if repo.Origin.SSH = true then
        match env.loadKey (keyPath env repo) with
        | some e => Except.error e
        | none => Except.ok
            ({ repo with Origin := { repo.Origin with SSHKey := keyPath env repo } },
              chosenAuth repo (keyPath env repo))
      else Except.ok (repo, chosenAuth repo (keyPath env repo)) := by
  unfold selectAuth chosenAuth keyPath
  by_cases h1 : repo.Origin.SSH = true
  · simp [h1]
  · by_cases h2 : repo.Token = ""
    · by_cases h3 : repo.Origin.Username ≠ "" ∧ repo.Origin.Password ≠ ""
      · simp [h1, h2, h3]
      · have h4 : repo.Origin.Username = "" ∨ repo.Origin.Password = "" := by
          by_contra hc
          exact h3 ⟨fun h => hc (Or.inl h), fun h => hc (Or.inr h)⟩
        rcases h4 with h4 | h4 <;> simp [h1, h2, h4]
    · simp [h1, h2]

/-- Every transport call of `Locally` carries the credentials picked from the
descriptor. -/
theorem Locally_auth (env : Env) (repo : Repo) (l : Local) (dry : Bool) :
    ∀ e ∈ (Locally env repo l dry).trace,
      e.auth? = none ∨ e.auth? = some (chosenAuth repo (keyPath env repo)) := by
  have hsetup := setupDest_auth env l dry
  intro e he
  unfold Locally at he
  cases hs : setupDest env l dry with
  | error ev =>
    rw [hs] at hsetup he
    exact Or.inl (hsetup e he)
  | ok ev =>
    rw [hs] at hsetup he
    simp only at hsetup he
    have hsel := selectAuth_eq env { repo with Name := targetName repo l env.now }
    cases ha : selectAuth env { repo with Name := targetName repo l env.now } with
    | error err =>
      rw [ha] at he
      exact Or.inl (hsetup e he)
    | ok ra =>
      obtain ⟨repo2, auth⟩ := ra
      rw [ha] at he hsel
      have hauth : auth = chosenAuth repo (keyPath env repo) := by
        have h2 : chosenAuth { repo with Name := targetName repo l env.now }
            (keyPath env { repo with Name := targetName repo l env.now }) =
            chosenAuth repo (keyPath env repo) := rfl
        rw [← h2]
        split at hsel
        · split at hsel
          · simp at hsel
          · simp only [Except.ok.injEq, Prod.mk.injEq] at hsel
            exact hsel.2
        · simp only [Except.ok.injEq, Prod.mk.injEq] at hsel
          exact hsel.2
      simp only [Result.after, List.mem_append] at he
      rcases he with he | he
      · exact Or.inl (hsetup e he)
      · rw [← hauth]
        rcases retryLoop_mem env repo2 l dry auth e tries 1 he with ⟨y, _, _, hy⟩ | h | h
        · exact syncAttempt_auth env repo2 l dry auth y e hy
        · exact Or.inl (archiveStep_auth env repo2 l e h)
        · exact Or.inl (pruneStep_auth env repo2 l e h)

/-! ## Facts about the retention block -/

/-- The slice `keep` holds the valid entries, in listing order; a name that
does not parse is not excluded. -/
theorem pruneScan_keep (compression : String) (files : List String) :
    (pruneScan compression files).1 = files.filter (validEntry compression) := by
  induction files with
  | nil => rfl
  | cons f rest ih =>
    by_cases hc : compression = ""
    · subst hc
      simp only [pruneScan, List.filter_cons, ih]
      simp [validEntry]
    · cases hs : hasSuffix f (getCompressedArchiveSuffix compression)
      · simp only [pruneScan, List.filter_cons, ih]
        simp [validEntry, hc, hs]
      · simp only [pruneScan, List.filter_cons, ih]
        simp [validEntry, hc, hs]

theorem sortReverse_sorted (keep : List String) :
    (sortReverse keep).Sorted (fun a b => b.data ≤ a.data) :=
  List.sorted_insertionSort _ keep

theorem sortReverse_perm (keep : List String) : (sortReverse keep).Perm keep :=
  List.perm_insertionSort _ keep

/-- With a positive keep count, `toremove` is the sorted slice from index
`keep` on. -/
theorem pruneRemove_eq (l : Local) (files : List String) (hk : l.Keep > 0) :
    pruneRemove l files =
      (sortReverse (files.filter (validEntry l.Compression))).drop l.Keep.toNat := by
  unfold pruneRemove
  rw [pruneScan_keep]
  simp only
  split
  · rfl
  · rename_i h
    symm
    apply List.drop_eq_nil_of_le
    have : ((l.Keep.toNat : Nat) : Int) = l.Keep := Int.toNat_of_nonneg (le_of_lt hk)
    omega

/-- What the retention block keeps and removes. -/
theorem prune_kept (l : Local) (files : List String) (hk : l.Keep > 0) (hnd : files.Nodup) :
    (keptEntries l files).Perm
      ((sortReverse (files.filter (validEntry l.Compression))).take l.Keep.toNat) := by
  have hVnd : (files.filter (validEntry l.Compression)).Nodup := hnd.filter _
  have hSnd : (sortReverse (files.filter (validEntry l.Compression))).Nodup :=
    (sortReverse_perm _).nodup_iff.mpr hVnd
  have hdisj := List.disjoint_take_drop hSnd (le_refl l.Keep.toNat)
  have hnd1 : (keptEntries l files).Nodup := by
    unfold keptEntries listingAfter
    exact (hnd.filter _).filter _
  rw [List.perm_ext_iff_of_nodup hnd1 ((List.take_sublist _ _).nodup hSnd)]
  intro a
  unfold keptEntries
  rw [pruneRemove_eq l files hk]
  simp only [listingAfter, List.mem_filter, decide_eq_true_eq]
  constructor
  · rintro ⟨⟨hf, hnr⟩, hv⟩
    have hS : a ∈ sortReverse (files.filter (validEntry l.Compression)) :=
      (sortReverse_perm _).mem_iff.mpr (List.mem_filter.mpr ⟨hf, hv⟩)
    rw [← List.take_append_drop l.Keep.toNat (sortReverse _), List.mem_append] at hS
    rcases hS with hS | hS
    · exact hS
    · exact absurd hS hnr
  · intro ht
    have hS : a ∈ sortReverse (files.filter (validEntry l.Compression)) :=
      List.mem_of_mem_take ht
    have hV := (sortReverse_perm _).mem_iff.mp hS
    rw [List.mem_filter] at hV
    exact ⟨⟨hV.1, fun hd => hdisj ht hd⟩, hV.2⟩

/-! ## Facts about timestamp names -/

theorem cons_lt_cons_iff (a b : Char) (as bs : List Char) :
    a :: as < b :: bs ↔ a < b ∨ (a = b ∧ as < bs) := by
  show List.Lex (· < ·) _ _ ↔ _ ∨ (_ ∧ List.Lex (· < ·) _ _)
  constructor
  · intro h
    cases h with
    | cons h => exact Or.inr ⟨rfl, h⟩
    | rel h => exact Or.inl h
  · rintro (h | ⟨rfl, h⟩)
    · exact List.Lex.rel h
    · exact List.Lex.cons h

theorem decimalValue_foldl (cs : List Char) : ∀ acc : Nat,
    cs.foldl (fun acc c => 10 * acc + (c.toNat - '0'.toNat)) acc =
      acc * 10 ^ cs.length + decimalValue cs := by
  induction cs with
  | nil => intro acc; simp [decimalValue]
  | cons c cs ih =>
    intro acc
    simp only [List.foldl_cons, List.length_cons, decimalValue]
    rw [ih, ih (10 * 0 + _)]
    ring

theorem decimalValue_cons (c : Char) (cs : List Char) :
    decimalValue (c :: cs) = (c.toNat - '0'.toNat) * 10 ^ cs.length + decimalValue cs := by
  simp only [decimalValue, List.foldl_cons]
  rw [decimalValue_foldl]
  simp [decimalValue]

theorem digit_toNat (c : Char) (h : c.isDigit = true) : 48 ≤ c.toNat ∧ c.toNat ≤ 57 := by
  simp only [Char.isDigit, Bool.and_eq_true, decide_eq_true_eq, ge_iff_le] at h
  obtain ⟨h1, h2⟩ := h
  have h1' : (48 : UInt32).toNat ≤ c.val.toNat := h1
  have h2' : c.val.toNat ≤ (57 : UInt32).toNat := h2
  exact ⟨h1', h2'⟩

theorem char_lt_iff_toNat (c d : Char) : c < d ↔ c.toNat < d.toNat := by
  rw [Char.lt_iff_val_lt_val]
  rfl

theorem char_eq_of_toNat (c d : Char) (h : c.toNat = d.toNat) : c = d := by
  apply Char.ext
  apply UInt32.ext
  exact h

theorem decimalValue_lt (cs : List Char) (h : ∀ c ∈ cs, c.isDigit = true) :
    decimalValue cs < 10 ^ cs.length := by
  induction cs with
  | nil => simp [decimalValue]
  | cons c cs ih =>
    have hc := digit_toNat c (h c (List.mem_cons_self _ _))
    have := ih (fun d hd => h d (List.mem_cons_of_mem _ hd))
    rw [decimalValue_cons]
    have h0 : '0'.toNat = 48 := rfl
    rw [h0, List.length_cons, pow_succ]
    have : (c.toNat - 48) * 10 ^ cs.length ≤ 9 * 10 ^ cs.length :=
      Nat.mul_le_mul_right _ (by omega)
    omega

theorem digits_lt_iff (x : List Char) : ∀ y : List Char, x.length = y.length →
    (∀ c ∈ x, c.isDigit = true) → (∀ c ∈ y, c.isDigit = true) →
    (x < y ↔ decimalValue x < decimalValue y) := by
  induction x with
  | nil =>
    intro y hlen _ _
    cases y with
    | nil => simp [decimalValue]
    | cons d ds => simp at hlen
  | cons c cs ih =>
    intro y hlen hx hy
    cases y with
    | nil => simp at hlen
    | cons d ds =>
      have hlen2 : cs.length = ds.length := by simpa using hlen
      have hc := digit_toNat c (hx c (List.mem_cons_self _ _))
      have hd := digit_toNat d (hy d (List.mem_cons_self _ _))
      have hcs := decimalValue_lt cs (fun e he => hx e (List.mem_cons_of_mem _ he))
      have hds := decimalValue_lt ds (fun e he => hy e (List.mem_cons_of_mem _ he))
      have ih2 := ih ds hlen2 (fun e he => hx e (List.mem_cons_of_mem _ he))
        (fun e he => hy e (List.mem_cons_of_mem _ he))
      have h0 : '0'.toNat = 48 := rfl
      rw [cons_lt_cons_iff, decimalValue_cons, decimalValue_cons, h0, char_lt_iff_toNat, ih2,
        hlen2]
      rw [hlen2] at hcs
      generalize 10 ^ ds.length = P at hcs hds ⊢
      generalize decimalValue cs = u at hcs ⊢
      generalize decimalValue ds = v at hds ⊢
      constructor
      · rintro (h | ⟨rfl, h⟩)
        · have : (c.toNat - 48 + 1) * P ≤ (d.toNat - 48) * P :=
            Nat.mul_le_mul_right _ (by omega)
          rw [Nat.add_mul] at this
          omega
        · omega
      · intro h
        rcases Nat.lt_trichotomy c.toNat d.toNat with hlt | heq | hgt
        · exact Or.inl hlt
        · have hcd := char_eq_of_toNat c d heq
          subst hcd
          exact Or.inr ⟨rfl, by omega⟩
        · exfalso
          have : (d.toNat - 48 + 1) * P ≤ (c.toNat - 48) * P :=
            Nat.mul_le_mul_right _ (by omega)
          rw [Nat.add_mul] at this
          omega

theorem append_lt_append_iff (s : List Char) (x : List Char) : ∀ y : List Char,
    x.length = y.length → (x ++ s < y ++ s ↔ x < y) := by
  induction x with
  | nil =>
    intro y hlen
    cases y with
    | nil => simp
    | cons d ds => simp at hlen
  | cons c cs ih =>
    intro y hlen
    cases y with
    | nil => simp at hlen
    | cons d ds =>
      have hlen2 : cs.length = ds.length := by simpa using hlen
      rw [List.cons_append, List.cons_append, cons_lt_cons_iff, cons_lt_cons_iff, ih ds hlen2]

/-- A name that ends in the suffix is its stem followed by the suffix. -/
theorem trimSuffix_append (name suffix : String) (h : hasSuffix name suffix = true) :
    name.data = (trimSuffix name suffix).data ++ suffix.data := by
  have hs : suffix.data <:+ name.data := List.isSuffixOf_iff_suffix.mp h
  obtain ⟨pre, hpre⟩ := hs
  simp only [trimSuffix, h, if_true]
  rw [← hpre]
  simp

/-- A valid entry is its stem followed by the archive suffix (by nothing when
compression is off). -/
theorem valid_name_eq (compression name : String) (h : validEntry compression name = true) :
    name.data = (entryStem compression name).data ++
      (if compression ≠ "" then (getCompressedArchiveSuffix compression).data else []) := by
  unfold entryStem
  by_cases hc : compression = ""
  · simp [hc]
  · have hs : hasSuffix name (getCompressedArchiveSuffix compression) = true := by
      simpa [validEntry, hc] using h
    simp only [ne_eq, hc, not_false_eq_true, if_true]
    exact trimSuffix_append name _ hs

/-- Among valid entries named by timestamps of one width, the order of the raw
names is the order of the timestamps. -/
theorem name_lt_iff_timestamp_lt (compression : String) (w : Nat) (a b : String)
    (ha : validEntry compression a = true) (hb : validEntry compression b = true)
    (hta : IsTimestampName w compression a) (htb : IsTimestampName w compression b) :
    a.data < b.data ↔ timestampOf compression a < timestampOf compression b := by
  rw [valid_name_eq compression a ha, valid_name_eq compression b hb,
    append_lt_append_iff _ _ _ (hta.1.trans htb.1.symm)]
  exact digits_lt_iff _ _ (hta.1.trans htb.1.symm) (List.all_eq_true.mp hta.2)
    (List.all_eq_true.mp htb.2)

theorem orderedInsert_congr (r s : String → String → Prop) [DecidableRel r] [DecidableRel s]
    (a : String) (m : List String) (h : ∀ b ∈ m, (r a b ↔ s a b)) :
    m.orderedInsert r a = m.orderedInsert s a := by
  induction m with
  | nil => rfl
  | cons b m ih =>
    have hb := h b (List.mem_cons_self _ _)
    have ih2 := ih (fun c hc => h c (List.mem_cons_of_mem _ hc))
    simp only [List.orderedInsert]
    by_cases hr : r a b
    · simp [hr, hb.mp hr]
    · have hs : ¬ s a b := fun hs => hr (hb.mpr hs)
      simp [hr, hs, ih2]

/-- Two relations that agree on the elements of a list sort it the same way. -/
theorem insertionSort_congr (r s : String → String → Prop) [DecidableRel r] [DecidableRel s]
    (l : List String) (h : ∀ a ∈ l, ∀ b ∈ l, (r a b ↔ s a b)) :
    l.insertionSort r = l.insertionSort s := by
  induction l with
  | nil => rfl
  | cons a l ih =>
    have ih2 := ih (fun x hx y hy => h x (List.mem_cons_of_mem _ hx) y (List.mem_cons_of_mem _ hy))
    simp only [List.insertionSort]
    rw [ih2]
    apply orderedInsert_congr
    intro b hb
    have hbl : b ∈ l := (List.perm_insertionSort s l).mem_iff.mp hb
    exact h a (List.mem_cons_self _ _) b (List.mem_cons_of_mem _ hbl)

/-- Every removed entry is below every valid entry that stays, in the order of
the raw names. -/
theorem removed_below_kept (l : Local) (files : List String) (hk : l.Keep > 0)
    (hnd : files.Nodup) :
    ∀ a ∈ keptEntries l files, ∀ b ∈ pruneRemove l files, b.data < a.data := by
  intro a ha b hb
  have hSnd : (sortReverse (files.filter (validEntry l.Compression))).Nodup :=
    (sortReverse_perm _).nodup_iff.mpr (hnd.filter _)
  have hat := (prune_kept l files hk hnd).mem_iff.mp ha
  rw [pruneRemove_eq l files hk] at hb
  have hle : b.data ≤ a.data := (sortReverse_sorted _).rel_of_mem_take_of_mem_drop hat hb
  have hne : b.data ≠ a.data := by
    intro h
    have hEq : b = a := String.ext h
    subst hEq
    exact List.disjoint_take_drop hSnd (le_refl _) hat hb
  exact lt_of_le_of_ne hle hne

theorem digitChar_value : ∀ d, d < 10 →
    (Nat.digitChar d).toNat - '0'.toNat = d ∧ (Nat.digitChar d).isDigit = true := by
  decide

theorem toDigitsCore_value (fuel : Nat) : ∀ (n : Nat) (ds : List Char), n < fuel →
    decimalValue (Nat.toDigitsCore 10 fuel n ds) = n * 10 ^ ds.length + decimalValue ds := by
  induction fuel with
  | zero => intro n ds h; omega
  | succ fuel ih =>
    intro n ds h
    have hd := (digitChar_value (n % 10) (Nat.mod_lt _ (by decide))).1
    simp only [Nat.toDigitsCore]
    split
    · rename_i h0
      rw [decimalValue_cons, hd]
      have : n % 10 = n := by omega
      rw [this]
    · rename_i h0
      rw [ih (n / 10) _ (by omega), decimalValue_cons, hd, List.length_cons, pow_succ]
      have hn : n = 10 * (n / 10) + n % 10 := (Nat.div_add_mod n 10).symm
      generalize 10 ^ ds.length = P
      generalize decimalValue ds = v
      nth_rewrite 3 [hn]
      ring

theorem toDigitsCore_digits (fuel : Nat) : ∀ (n : Nat) (ds : List Char),
    (∀ c ∈ ds, c.isDigit = true) →
    ∀ c ∈ Nat.toDigitsCore 10 fuel n ds, c.isDigit = true := by
  induction fuel with
  | zero => intro n ds h c hc; exact h c (by simpa [Nat.toDigitsCore] using hc)
  | succ fuel ih =>
    intro n ds h c hc
    have hd : ∀ c ∈ Nat.digitChar (n % 10) :: ds, c.isDigit = true := by
      intro c hc
      rcases List.mem_cons.mp hc with rfl | hc
      · exact (digitChar_value _ (Nat.mod_lt _ (by decide))).2
      · exact h c hc
    simp only [Nat.toDigitsCore] at hc
    split at hc
    · exact hd c hc
    · exact ih _ _ hd c hc

theorem repr_value (n : Nat) :
    decimalValue (Nat.repr n).data = n ∧ ∀ c ∈ (Nat.repr n).data, c.isDigit = true := by
  constructor
  · have := toDigitsCore_value (n + 1) n [] (by omega)
    simpa [Nat.repr, Nat.toDigits, List.asString, decimalValue] using this
  · intro c hc
    exact toDigitsCore_digits (n + 1) n [] (by simp) c
      (by simpa [Nat.repr, Nat.toDigits, List.asString] using hc)

/-- The entry `Locally` writes for a non-negative Unix time `t` (the decimal
rendering, followed by the archive suffix when compression is on) is a valid
entry whose stem is the rendering and whose timestamp is `t`. -/
theorem written_name_timestamp (compression : String) (t : Int) (ht : 0 ≤ t) :
    validEntry compression
        (sprintInt t ++ (if compression ≠ "" then getCompressedArchiveSuffix compression
          else "")) = true ∧
      timestampOf compression
        (sprintInt t ++ (if compression ≠ "" then getCompressedArchiveSuffix compression
          else "")) = t.toNat := by
  have hs : sprintInt t = Nat.repr t.toNat := by
    unfold sprintInt
    rw [if_neg (not_lt.mpr ht)]
  by_cases hc : compression = ""
  · subst hc
    simp [validEntry, timestampOf, entryStem, hs, (repr_value t.toNat).1]
  · have hsuf : hasSuffix (sprintInt t ++ getCompressedArchiveSuffix compression)
        (getCompressedArchiveSuffix compression) = true := by
      unfold hasSuffix
      rw [List.isSuffixOf_iff_suffix, String.data_append]
      exact ⟨_, rfl⟩
    have htrim : trimSuffix (sprintInt t ++ getCompressedArchiveSuffix compression)
        (getCompressedArchiveSuffix compression) = sprintInt t := by
      unfold trimSuffix
      rw [if_pos hsuf]
      apply String.ext
      simp
    simp only [ne_eq, hc, not_false_eq_true, if_true, validEntry, hsuf, or_true, decide_True,
      timestampOf, entryStem, htrim, true_and]
    rw [hs]
    exact (repr_value t.toNat).1

/-- A name of one to eighteen decimal digits parses as an `int64`. -/
theorem timestamp_parses (stem : String) (w : Nat) (hlen : stem.data.length = w)
    (hd : stem.data.all Char.isDigit = true) (hw : 0 < w) (hw2 : w ≤ 18) :
    parseIntOk stem = true := by
  have hall := List.all_eq_true.mp hd
  have hval : decimalValue stem.data < 10 ^ stem.data.length := decimalValue_lt _ hall
  have hpow : 10 ^ stem.data.length ≤ 10 ^ 18 :=
    Nat.pow_le_pow_right (by decide) (by omega)
  have hval2 : decimalValue stem.data < 2 ^ 63 :=
    lt_of_lt_of_le hval (le_trans hpow (by norm_num))
  cases hdata : stem.data with
  | nil => rw [hdata] at hlen; simp at hlen; omega
  | cons c cs =>
    have hc : c.isDigit = true := hall c (by rw [hdata]; exact List.mem_cons_self _ _)
    have hminus : c ≠ '-' := by
      intro h; rw [h] at hc; exact absurd hc (by decide)
    have hplus : c ≠ '+' := by
      intro h; rw [h] at hc; exact absurd hc (by decide)
    rw [hdata] at hd hval2
    unfold parseIntOk
    simp only [hdata, List.head?_cons, Option.some.injEq, hminus, hplus, or_self, if_false,
      ne_eq, reduceCtorEq, not_false_eq_true, true_and, decide_eq_true_eq]
    exact ⟨hd, hval2⟩

/-! ## Facts about the ways a call can end -/

/-- `cloneRepository` ends the process only through a failed SSH probe step. -/
theorem cloneRepository_not_fatal (env : Env) (repo : Repo) (auth : AuthMethod)
    (dry bare : Bool) (x : Nat)
    (h : repo.Origin.SSH = true → dry = false →
      env.getValues repo.SSHURL = none ∧ env.gophKey repo.Origin.SSHKey = none ∧
        env.testSSH x = none) :
    (cloneRepository env repo auth dry bare x).2 ≠ CloneResult.fatal := by
  unfold cloneRepository
  cases hd : dry
  · cases hs : repo.Origin.SSH
    · cases env.remList x <;> cases env.plainClone x <;> simp
    · obtain ⟨h1, h2, h3⟩ := h hs hd
      cases env.remList x <;> cases env.plainClone x <;> simp [h1, h2, h3]
  · simp

/-- An attempt neither ends the process nor panics when the SSH probe holds,
the update does not fail for good on the last try, and `os.Stat` fails only
with "not exist". -/
theorem syncAttempt_no_abort (env : Env) (repo : Repo) (l : Local) (dry : Bool)
    (auth : AuthMethod) (x : Nat)
    (hprobe : repo.Origin.SSH = true → dry = false →
      env.getValues repo.SSHURL = none ∧ env.gophKey repo.Origin.SSHKey = none ∧
        env.testSSH x = none)
    (hupd : x = tries → env.statRepo x = StatResult.dir → ∀ msg,
      (updateRepository env repo.Name auth dry l.Bare x).2 = some msg →
        strContains msg "already up-to-date" = true)
    (hstat : env.statRepo x ≠ StatResult.failed) :
    (syncAttempt env repo l dry auth x).2 ≠ Flow.exit ∧
      (syncAttempt env repo l dry auth x).2 ≠ Flow.panic := by
  have hc := cloneRepository_not_fatal env repo auth dry l.Bare x hprobe
  unfold syncAttempt
  generalize cloneRepository env repo auth dry l.Bare x = c at hc
  generalize updateRepository env repo.Name auth dry l.Bare x = u at hupd
  obtain ⟨cev, cres⟩ := c
  obtain ⟨uev, ures⟩ := u
  simp only at hc hupd
  cases hs : env.statRepo x with
  | notExist =>
    cases cres with
    | ok => simp
    | fatal => exact absurd rfl hc
    | failed msg =>
      simp only
      split_ifs <;> simp
  | failed => exact absurd hs hstat
  | file => simp
  | dir =>
    cases ures with
    | none => simp
    | some msg =>
      simp only
      by_cases hx : x = tries
      · have := hupd hx hs msg rfl
        simp [this]
      · by_cases hm : strContains msg "already up-to-date" = true <;> simp [hm, hx]

/-- Under the same three conditions at every attempt, the loop returns `true` or
runs out of fuel. -/
theorem retryLoop_returns (env : Env) (repo : Repo) (l : Local) (dry : Bool)
    (auth : AuthMethod)
    (hprobe : repo.Origin.SSH = true → dry = false →
      env.getValues repo.SSHURL = none ∧ env.gophKey repo.Origin.SSHKey = none ∧
        ∀ x, env.testSSH x = none)
    (hupd : env.statRepo tries = StatResult.dir → ∀ msg,
      (updateRepository env repo.Name auth dry l.Bare tries).2 = some msg →
        strContains msg "already up-to-date" = true)
    (hstat : ∀ x, env.statRepo x ≠ StatResult.failed) (fuel : Nat) : ∀ x,
    (retryLoop env repo l dry auth fuel x).outcome = Outcome.returned true ∨
      (retryLoop env repo l dry auth fuel x).outcome = Outcome.outOfFuel := by
  induction fuel with
  | zero =>
    intro x
    simp only [retryLoop]
    split <;> simp
  | succ fuel ih =>
    intro x
    have hpast := retryLoop_past env repo l dry auth fuel (5 + 1) (by decide)
    obtain ⟨h1, h2⟩ := syncAttempt_no_abort env repo l dry auth x
      (fun hs hd => ⟨(hprobe hs hd).1, (hprobe hs hd).2.1, (hprobe hs hd).2.2 x⟩)
      (fun hx => by subst hx; exact hupd) (hstat x)
    simp only [retryLoop]
    split
    · cases hfl : (syncAttempt env repo l dry auth x).2 with
      | next => simpa [Result.after] using ih (x + 1)
      | stop => simp
      | exit => exact absurd hfl h1
      | panic => exact absurd hfl h2
      | through =>
        simp only
        split
        · simp
        · simp [hpast, Result.after]
    · simp

/-- What a successful `selectAuth` hands on to the loop. -/
theorem selectAuth_ok (env : Env) (repo r : Repo) (a : AuthMethod)
    (h : selectAuth env repo = Except.ok (r, a)) :
    a = chosenAuth repo (keyPath env repo) ∧ r.Name = repo.Name ∧ r.SSHURL = repo.SSHURL ∧
      r.Origin.SSH = repo.Origin.SSH ∧
      (repo.Origin.SSH = true → r.Origin.SSHKey = keyPath env repo) := by
  rw [selectAuth_eq] at h
  split at h
  · split at h
    · simp at h
    · simp only [Except.ok.injEq, Prod.mk.injEq] at h
      obtain ⟨h1, h2⟩ := h
      subst h1
      exact ⟨h2.symm, rfl, rfl, rfl, fun _ => rfl⟩
  · rename_i hs
    simp only [Except.ok.injEq, Prod.mk.injEq] at h
    obtain ⟨h1, h2⟩ := h
    subst h1
    exact ⟨h2.symm, rfl, rfl, rfl, fun hs2 => absurd hs2 hs⟩

/-- A clone that did not succeed changed nothing on disk. -/
theorem cloneRepository_failed_mutates (env : Env) (repo : Repo) (auth : AuthMethod)
    (dry bare : Bool) (x : Nat) (msg : String)
    (h : (cloneRepository env repo auth dry bare x).2 = CloneResult.failed msg) :
    ∀ e ∈ (cloneRepository env repo auth dry bare x).1, e.mutates = false := by
  revert h
  unfold cloneRepository
  repeat' split
  all_goals simp_all [Event.mutates]
  all_goals (repeat' split) <;> simp_all [Event.mutates]

/-- The only change `setupDest` makes is creating the destination. -/
theorem setupDest_mutates (env : Env) (l : Local) (dry : Bool) :
    ∀ e ∈ (match setupDest env l dry with
      | Except.ok ev => ev
      | Except.error ev => ev), e.mutates = true → e = Event.mkdirAll l.Path := by
  unfold setupDest
  cases env.statPath <;> cases dry <;> cases env.mkdirAll <;> cases env.statPathAgain <;>
    cases env.chdir <;> simp [Event.mutates]

/-! ## The claims -/

/-- C1: the target path of `Locally` is built in a fixed order.  The base name
is `path.Join(hoster, owner, name)` when `structured` is set and the plain name
otherwise; then `.git` is appended when `bare` is set; then
`path.Join(name, timestamp)` adds the decimal Unix time of the start of the
call when `keep > 0`.  When the name (and, if structured, hoster and owner) are
ordinary path elements, the result is literally
`[hoster/owner/]name[.git][/timestamp]`, with nothing else added.  Every attempt
of `Locally` looks at exactly this path. -/
theorem targetName_fixed_order (repo : Repo) (l : Local) (env : Env) (dry : Bool) :
    targetName repo l env.now =
      (fun named => if l.Keep > 0 then pathJoin [named, sprintInt env.now] else named)
        ((fun base => if l.Bare = true then base ++ ".git" else base)
          (if l.Structured = true then pathJoin [repo.Hoster, repo.Owner, repo.Name]
            else repo.Name))
    ∧ (PlainSegment repo.Name →
        (l.Structured = true → PlainSegment repo.Hoster ∧ PlainSegment repo.Owner) →
        targetName repo l env.now =
          (if l.Structured = true then repo.Hoster ++ "/" ++ repo.Owner ++ "/" ++ repo.Name
            else repo.Name)
          ++ (if l.Bare = true then ".git" else "")
          ++ (if l.Keep > 0 then "/" ++ sprintInt env.now else ""))
    ∧ (∀ p, Event.statRepo p ∈ (Locally env repo l dry).trace →
        p = targetName repo l env.now) := by
  refine ⟨rfl, targetName_plain repo l env.now, ?_⟩
  intro p hp
  obtain ⟨_, n, _, htr⟩ := Locally_rhythm env repo l dry
  have hmem : Event.statRepo p ∈ (Locally env repo l dry).trace.filter Event.isAttemptOrSleep :=
    List.mem_filter.mpr ⟨hp, rfl⟩
  rw [htr] at hmem
  rcases mem_rhythm _ _ _ _ hmem with h | h
  · cases h
  · cases h; rfl

/-- Witness for C1: a structured, bare, snapshotting destination. -/
theorem targetName_fixed_order_witness :
    PlainSegment tokenRepo.Name ∧
    (snapshotLocal.Structured = true →
      PlainSegment tokenRepo.Hoster ∧ PlainSegment tokenRepo.Owner) ∧
    targetName tokenRepo snapshotLocal calmEnv.now = "git.example/alice/proj.git/500" :=
  ⟨by decide, by decide,
    ((targetName_fixed_order tokenRepo snapshotLocal calmEnv false).2.1
      (by decide) (by decide)).trans (by decide)⟩

/-- C2: the choice of credentials in `Locally` is total and first-match-wins.
`selectAuth` fails only when SSH is requested and the key file cannot be loaded
(`Locally` then returns `false`); otherwise it yields exactly one method: the
SSH key (user `git`, the given key path or `$HOME/.ssh/id_rsa`) when SSH is
requested, whatever token or password are set; else the token as password of
user `xyz` when the token is not empty; else the descriptor's username and
password when both are not empty; else no credentials.  Every transport call of
`Locally` carries that method. -/
theorem selectAuth_first_match (env : Env) (repo : Repo) (l : Local) (dry : Bool) :
    (match selectAuth env repo with
      | Except.ok (r, a) =>
        a = chosenAuth repo (keyPath env repo) ∧ r.Name = repo.Name ∧
          (repo.Origin.SSH = true →
            env.loadKey (keyPath env repo) = none ∧ r.Origin.SSHKey = keyPath env repo)
      | Except.error e => repo.Origin.SSH = true ∧ env.loadKey (keyPath env repo) = some e)
    ∧ ((repo.Origin.SSH = false ∨ env.loadKey (keyPath env repo) = none) →
        ∃ r, selectAuth env repo = Except.ok (r, chosenAuth repo (keyPath env repo)))
    ∧ (∀ key, repo.Origin.SSH = true → chosenAuth repo key = AuthMethod.publicKeys "git" key)
    ∧ (∀ key, repo.Origin.SSH = false → repo.Token ≠ "" →
        chosenAuth repo key = AuthMethod.basicAuth "xyz" repo.Token)
    ∧ (∀ key, repo.Origin.SSH = false → repo.Token = "" →
        repo.Origin.Username ≠ "" → repo.Origin.Password ≠ "" →
        chosenAuth repo key =
          AuthMethod.basicAuth repo.Origin.Username repo.Origin.Password)
    ∧ (∀ key, repo.Origin.SSH = false → repo.Token = "" →
        (repo.Origin.Username = "" ∨ repo.Origin.Password = "") →
        chosenAuth repo key = AuthMethod.none)
    ∧ (repo.Origin.SSHKey = "" → keyPath env repo = pathJoin [env.home, ".ssh", "id_rsa"])
    ∧ (repo.Origin.SSHKey ≠ "" → keyPath env repo = repo.Origin.SSHKey)
    ∧ (∀ e ∈ (Locally env repo l dry).trace,
        e.auth? = none ∨ e.auth? = some (chosenAuth repo (keyPath env repo))) := by
  refine ⟨?_, ?_, ?_, ?_, ?_, ?_, ?_, ?_, Locally_auth env repo l dry⟩
  · rw [selectAuth_eq]
    by_cases h1 : repo.Origin.SSH = true
    · cases hk : env.loadKey (keyPath env repo) <;> simp [h1, hk]
    · simp [h1]
  · intro h
    rw [selectAuth_eq]
    by_cases h1 : repo.Origin.SSH = true
    · rcases h with h | h
      · rw [h1] at h; cases h
      · simp [h1, h]
    · simp [h1]
  · intro key h; simp [chosenAuth, h]
  · intro key h1 h2; simp [chosenAuth, h1, h2]
  · intro key h1 h2 h3 h4; simp [chosenAuth, h1, h2, h3, h4]
  · intro key h1 h2 h3
    rcases h3 with h3 | h3 <;> simp [chosenAuth, h1, h2, h3]
  · intro h; simp [keyPath, h]
  · intro h; simp [keyPath, h]

/-- Witness for C2: a descriptor with a token, a username and a password, not
over SSH, gets the token as password of the placeholder user. -/
theorem selectAuth_first_match_witness :
    tokenRepo.Origin.SSH = false ∧ tokenRepo.Token ≠ "" ∧
    chosenAuth tokenRepo "" = AuthMethod.basicAuth "xyz" tokenRepo.Token :=
  ⟨by decide, by decide,
    (selectAuth_first_match calmEnv tokenRepo plainLocal false).2.2.2.1 ""
      (by decide) (by decide)⟩

/-- C3: the retention invariant.  For a keep count `k > 0` and a listing of the
snapshot directory (distinct names), the valid entries are the ones the scan
collects, whether or not their names parse; once the removals of the retention
block have succeeded, at most `k` valid entries remain, as many as
`min k (number of valid entries)`; they are the first `k` of the valid entries
in descending order, every valid entry that was removed is smaller than every
one that was kept, and entries that are not valid are left alone.  The removals
are the ones `Locally` issues after listing the directory. -/
theorem prune_retention (l : Local) (files : List String) (hk : l.Keep > 0)
    (hnd : files.Nodup) :
    (pruneScan l.Compression files).1 = files.filter (validEntry l.Compression)
    ∧ (keptEntries l files).length ≤ l.Keep.toNat
    ∧ (keptEntries l files).length =
        min l.Keep.toNat (files.filter (validEntry l.Compression)).length
    ∧ (∀ f, f ∈ keptEntries l files ↔
        f ∈ (sortReverse (files.filter (validEntry l.Compression))).take l.Keep.toNat)
    ∧ (∀ a ∈ keptEntries l files, ∀ b ∈ files.filter (validEntry l.Compression),
        b ∉ keptEntries l files → b < a)
    ∧ (∀ f ∈ files, validEntry l.Compression f = false →
        f ∈ listingAfter files (pruneRemove l files))
    ∧ (∀ (env : Env) (repo : Repo), env.readDir = Except.ok files →
        pruneStep env repo l =
          (Event.readDir (pathDir repo.Name) ::
            (pruneRemove l files).map
              (fun f => Event.removeAll (pathJoin [pathDir repo.Name, f])), false)) := by
  have hperm := prune_kept l files hk hnd
  have hlen : (keptEntries l files).length =
      min l.Keep.toNat (files.filter (validEntry l.Compression)).length := by
    rw [hperm.length_eq, List.length_take, (sortReverse_perm _).length_eq]
  have hSnd : (sortReverse (files.filter (validEntry l.Compression))).Nodup :=
    (sortReverse_perm _).nodup_iff.mpr (hnd.filter _)
  refine ⟨pruneScan_keep _ _, ?_, hlen, fun f => hperm.mem_iff, ?_, ?_, ?_⟩
  · rw [hlen]; exact min_le_left _ _
  · intro a ha b hb hnb
    have hat := hperm.mem_iff.mp ha
    have hbS : b ∈ sortReverse (files.filter (validEntry l.Compression)) :=
      (sortReverse_perm _).mem_iff.mpr hb
    rw [← List.take_append_drop l.Keep.toNat (sortReverse _), List.mem_append] at hbS
    rcases hbS with hbt | hbd
    · exact absurd (hperm.mem_iff.mpr hbt) hnb
    · have hle : b.data ≤ a.data :=
        (sortReverse_sorted _).rel_of_mem_take_of_mem_drop hat hbd
      have hne : b ≠ a := by
        rintro rfl
        exact List.disjoint_take_drop hSnd (le_refl _) hat hbd
      have hne2 : b.data ≠ a.data := fun h => hne (String.ext h)
      exact String.lt_iff_toList_lt.mpr (lt_of_le_of_ne hle hne2)
  · intro f hf hv
    simp only [listingAfter, List.mem_filter, decide_eq_true_eq]
    refine ⟨hf, ?_⟩
    rw [pruneRemove_eq l files hk]
    intro hd
    have hV := (sortReverse_perm _).mem_iff.mp (List.mem_of_mem_drop hd)
    rw [List.mem_filter, hv] at hV
    exact absurd hV.2 (by simp)
  · intro env repo hr
    simp [pruneStep, hk, hr]

/-- Witness for C3: keep 3 zip snapshots out of five, next to a stray entry. -/
theorem prune_retention_witness :
    snapshotLocal.Keep > 0 ∧
    ["100.zip", "200.zip", "300.zip", "400.zip", "500.zip", "notes"].Nodup ∧
    (keptEntries snapshotLocal
      ["100.zip", "200.zip", "300.zip", "400.zip", "500.zip", "notes"]).length = 3 :=
  ⟨by decide, by decide,
    ((prune_retention snapshotLocal
      ["100.zip", "200.zip", "300.zip", "400.zip", "500.zip", "notes"]
      (by decide) (by decide)).2.2.1).trans (by decide)⟩

/-- C4: the retry loop of `Locally` ends after at most 5 attempts, whatever the
clone and update calls answer.  The attempts and sleeps of a call, in order,
are `n ≤ 5` attempts with exactly one 5-second sleep between neighbours, so
at most 4 sleeps; the loop never needs more iterations than the model grants. -/
theorem Locally_at_most_five_attempts (env : Env) (repo : Repo) (l : Local) (dry : Bool) :
    (Locally env repo l dry).outcome ≠ Outcome.outOfFuel
    ∧ ((Locally env repo l dry).trace.filter Event.isAttempt).length ≤ 5
    ∧ ((Locally env repo l dry).trace.filter Event.isSleep).length ≤ 4
    ∧ ((Locally env repo l dry).trace.filter Event.isSleep).length =
        ((Locally env repo l dry).trace.filter Event.isAttempt).length - 1
    ∧ ∃ n, n ≤ 5 ∧
      (Locally env repo l dry).trace.filter Event.isAttemptOrSleep =
        List.intersperse (Event.sleep 5)
          (List.replicate n (Event.statRepo (targetName repo l env.now))) := by
  obtain ⟨hout, n, hn, htr⟩ := Locally_rhythm env repo l dry
  obtain ⟨ha, hs⟩ := filter_attempt_of_rhythm (Locally env repo l dry).trace
  obtain ⟨hca, hcs⟩ := rhythm_counts 5 (targetName repo l env.now) n
  rw [← htr, ha] at hca
  rw [← htr, hs] at hcs
  exact ⟨hout, by omega, by omega, by omega, n, hn, htr⟩

/-- C5 (the code departs from it): a failed update of an existing local copy
should make `Locally` delete the copy, sleep and try again, bare or not.  For a
non-bare copy the error of `w.Pull` is assigned to a shadowing `err` and lost:
`updateRepository` returns nil whatever the pull answered.  Here the pull is
refused on the first attempt, and `Locally` makes one attempt, deletes nothing,
does not sleep and returns `true`; the bare sibling, whose fetch is refused,
deletes the copy, sleeps and clones afresh. -/
theorem pull_error_swallowed :
    Locally pullFailsEnv tokenRepo plainLocal false =
      ⟨Outcome.returned true,
        [Event.statPath "/backup", Event.chdir "/backup", Event.statRepo "proj",
         Event.plainOpen "proj",
         Event.pull "proj" (AuthMethod.basicAuth "xyz" "t0k3n")
           (some "authentication required")]⟩
    ∧ (∀ err : Option String,
        (updateRepository { staleEnv with pull := fun _ => err } "proj"
          (AuthMethod.basicAuth "xyz" "t0k3n") false false 1).2 = none)
    ∧ Locally fetchFailsEnv tokenRepo bareLocal false =
      ⟨Outcome.returned true,
        [Event.statPath "/backup", Event.chdir "/backup", Event.statRepo "proj.git",
         Event.plainOpen "proj.git",
         Event.fetch "proj.git" (AuthMethod.basicAuth "xyz" "t0k3n"),
         Event.removeAll "proj.git", Event.sleep 5, Event.statRepo "proj.git",
         Event.listRemote "https://git.example/alice/proj.git"
           (AuthMethod.basicAuth "xyz" "t0k3n"),
         Event.plainClone "proj.git" "https://git.example/alice/proj.git" true
           (AuthMethod.basicAuth "xyz" "t0k3n") none]⟩ := by
  refine ⟨by decide, ?_, by decide⟩
  intro err
  rfl

/-- C6 (counterexample): `Locally` does not always return.  With the SSH server
unreachable the first clone ends the process through `log.Fatal`; with a local
copy that cannot be opened on any of the five attempts the last attempt does
the same. -/
theorem Locally_can_exit :
    (Locally sshDownEnv sshRepo plainLocal false).outcome = Outcome.exited
    ∧ (Locally brokenCopyEnv tokenRepo plainLocal false).outcome = Outcome.exited
    ∧ ((Locally brokenCopyEnv tokenRepo plainLocal false).trace.filter
        Event.isAttempt).length = 5 := by
  decide

/-- C6 (amended): `Locally` returns a boolean to its caller whenever no step of
the SSH probe of a clone fails (the SSH URL parses, the key is read, the
connection is made), an update that finds the copy on the fifth attempt fails,
if at all, with "already up-to-date", and `os.Stat` of the target fails only
with "not exist". -/
theorem Locally_returns_unless_fatal (env : Env) (repo : Repo) (l : Local) (dry : Bool)
    (hprobe : repo.Origin.SSH = true → dry = false →
      env.getValues repo.SSHURL = none ∧ env.gophKey (keyPath env repo) = none ∧
        ∀ x, env.testSSH x = none)
    (hupd : env.statRepo 5 = StatResult.dir → ∀ msg,
      (updateRepository env (targetName repo l env.now) (chosenAuth repo (keyPath env repo))
        dry l.Bare 5).2 = some msg → strContains msg "already up-to-date" = true)
    (hstat : ∀ x, env.statRepo x ≠ StatResult.failed) :
    ∃ b, (Locally env repo l dry).outcome = Outcome.returned b := by
  unfold Locally
  cases setupDest env l dry with
  | error ev => exact ⟨false, rfl⟩
  | ok ev =>
    simp only
    cases ha : selectAuth env { repo with Name := targetName repo l env.now } with
    | error e => exact ⟨false, rfl⟩
    | ok ra =>
      obtain ⟨repo2, auth⟩ := ra
      obtain ⟨h1, h2, h3, h4, h5⟩ := selectAuth_ok env _ repo2 auth ha
      simp only at h2 h3 h4 h5
      have hret := retryLoop_returns env repo2 l dry auth
        (fun hs hd => by
          rw [h4] at hs
          rw [h3, h5 hs]
          exact hprobe hs hd)
        (by rw [h2, h1]; exact hupd) hstat tries 1
      have hfuel := (retryLoop_rhythm env repo2 l dry auth tries 1 (by decide) (by decide)).1
      rcases hret with hret | hret
      · exact ⟨true, by simpa [Result.after] using hret⟩
      · exact absurd hret hfuel

/-- Witness for C6 (amended): a bare repository reached over SSH.  The probe
holds on each of the four clone attempts, which fail on listing the remote; the
fifth attempt finds the local copy and its fetch answers "already up-to-date".
The call returns. -/
theorem Locally_returns_unless_fatal_witness :
    sshRepo.Origin.SSH = true ∧
    lateCopyEnv.statRepo 5 = StatResult.dir ∧
    (updateRepository lateCopyEnv (targetName sshRepo bareLocal lateCopyEnv.now)
      (chosenAuth sshRepo (keyPath lateCopyEnv sshRepo)) false bareLocal.Bare 5).2 =
        some "already up-to-date" ∧
    ((Locally lateCopyEnv sshRepo bareLocal false).trace.filter Event.isAttempt).length = 5 ∧
    ∃ b, (Locally lateCopyEnv sshRepo bareLocal false).outcome = Outcome.returned b :=
  ⟨by decide, by decide, by decide, by decide,
    Locally_returns_unless_fatal lateCopyEnv sshRepo bareLocal false
      (fun _ _ => ⟨rfl, rfl, fun _ => rfl⟩)
      (fun _ msg h => by
        have hmsg : msg = "already up-to-date" := by
          have h2 : (some "already up-to-date" : Option String) = some msg := h
          exact (Option.some.inj h2).symm
        rw [hmsg]
        decide)
      (fun x => by
        simp only [lateCopyEnv]
        split <;> simp)⟩

/-- C7 (the code departs from it): a dry run should not touch the file system.
The archive and retention blocks do not look at `dry`: in a dry run against a
snapshot directory that holds five archives, `Locally` creates and writes a new
archive, removes the target path and deletes the two oldest archives. -/
theorem dry_run_mutates :
    (Locally calmEnv tokenRepo snapshotLocal true).trace.filter Event.mutates =
      [Event.create "git.example/alice/proj.git/500.zip" none,
       Event.archive ArchiveFormat.zip "git.example/alice/proj.git/500.zip" none,
       Event.removeAll "git.example/alice/proj.git/500",
       Event.removeAll "git.example/alice/proj.git/200.zip",
       Event.removeAll "git.example/alice/proj.git/100.zip"]
    ∧ (Locally staleEnv tokenRepo zipLocal true).trace.filter Event.mutates =
      [Event.create "proj.zip" none, Event.archive ArchiveFormat.zip "proj.zip" none,
       Event.removeAll "proj"] := by
  decide

/-- C8 (the code departs from it): a target path that is a plain file should be
skipped.  After the "is a file" warning the loop body falls through to the
archive block: with compression set, `Locally` archives the file and removes
it, although nothing was cloned or updated in the call.  Without compression
the file is left alone. -/
theorem file_target_archived :
    Locally fileEnv tokenRepo zipLocal false =
      ⟨Outcome.returned true,
        [Event.statPath "/backup", Event.chdir "/backup", Event.statRepo "proj",
         Event.filesFromDisk "proj" none, Event.create "proj.zip" none,
         Event.archive ArchiveFormat.zip "proj.zip" none, Event.removeAll "proj"]⟩ := by
  decide

/-- C9 (the code departs from it): the working copy should be deleted only when
the archive was written.  The errors of the archive block are only logged: here
writing the archive fails and `Locally` removes the fresh clone all the same,
and the archive block removes the working copy whatever collecting the files,
creating the archive file and writing the archive answer. -/
theorem failed_archive_still_deletes :
    Locally diskFullEnv tokenRepo zipLocal false =
      ⟨Outcome.returned true,
        [Event.statPath "/backup", Event.chdir "/backup", Event.statRepo "proj",
         Event.listRemote "https://git.example/alice/proj.git"
           (AuthMethod.basicAuth "xyz" "t0k3n"),
         Event.plainClone "proj" "https://git.example/alice/proj.git" false
           (AuthMethod.basicAuth "xyz" "t0k3n") none,
         Event.filesFromDisk "proj" none, Event.create "proj.zip" none,
         Event.archive ArchiveFormat.zip "proj.zip"
           (some "write proj.zip: no space left on device"),
         Event.removeAll "proj"]⟩
    ∧ (∀ collectErr createErr writeErr : Option String,
        Event.removeAll "proj" ∈
          archiveStep
            { calmEnv with filesFromDisk := collectErr, create := createErr, archive := writeErr }
            tokenRepo zipLocal) := by
  refine ⟨by decide, ?_⟩
  intro collectErr createErr writeErr
  simp [archiveStep, zipLocal, tokenRepo]

/-- C10: when the clone of the first attempt fails with exactly "repository not
found", `Locally` stops there: the call is the set-up, the `os.Stat` of the
target and the failed clone, with one attempt and no sleep; nothing is changed
on disk except, possibly, the creation of the destination directory during
set-up; and the call returns `true`. -/
theorem clone_not_found_stops (env : Env) (repo : Repo) (l : Local) (dry : Bool)
    (ev : List Event) (repo2 : Repo) (auth : AuthMethod)
    (hsetup : setupDest env l dry = Except.ok ev)
    (hauth : selectAuth env { repo with Name := targetName repo l env.now } =
      Except.ok (repo2, auth))
    (hstat : env.statRepo 1 = StatResult.notExist)
    (hclone : (cloneRepository env repo2 auth dry l.Bare 1).2 =
      CloneResult.failed "repository not found") :
    Locally env repo l dry =
      ⟨Outcome.returned true,
        ev ++ Event.statRepo (targetName repo l env.now) ::
          (cloneRepository env repo2 auth dry l.Bare 1).1⟩
    ∧ ((Locally env repo l dry).trace.filter Event.isAttempt).length = 1
    ∧ (Locally env repo l dry).trace.filter Event.isSleep = []
    ∧ (∀ e ∈ (Locally env repo l dry).trace, e.mutates = true → e = Event.mkdirAll l.Path) := by
  have hname : repo2.Name = targetName repo l env.now := selectAuth_name env _ repo2 auth hauth
  have heq : Locally env repo l dry =
      ⟨Outcome.returned true,
        ev ++ Event.statRepo (targetName repo l env.now) ::
          (cloneRepository env repo2 auth dry l.Bare 1).1⟩ := by
    unfold Locally
    simp only [hsetup, hauth, tries, retryLoop, syncAttempt, hstat, hclone, if_true, hname,
      Result.after, Nat.one_le_ofNat]
  have hsr := setupDest_rhythm env l dry
  have hsm := setupDest_mutates env l dry
  rw [hsetup] at hsr hsm
  simp only at hsr hsm
  have hcr := cloneRepository_rhythm env repo2 auth dry l.Bare 1
  have hcm := cloneRepository_failed_mutates env repo2 auth dry l.Bare 1 _ hclone
  obtain ⟨ha, hs⟩ := filter_attempt_of_rhythm (Locally env repo l dry).trace
  have hfil : (Locally env repo l dry).trace.filter Event.isAttemptOrSleep =
      [Event.statRepo (targetName repo l env.now)] := by
    rw [heq]
    simp [List.filter_append, hsr, hcr, Event.isAttemptOrSleep]
  refine ⟨heq, ?_, ?_, ?_⟩
  · rw [← ha, hfil]; rfl
  · rw [← hs, hfil]; rfl
  · intro e he hm
    rw [heq] at he
    simp only [List.mem_append, List.mem_cons] at he
    rcases he with he | rfl | he
    · exact hsm e he hm
    · cases hm
    · rw [hcm e he] at hm; cases hm

/-- Witness for C10: the remote answers "repository not found" to the listing. -/
theorem clone_not_found_stops_witness :
    notFoundEnv.statRepo 1 = StatResult.notExist ∧
    Locally notFoundEnv tokenRepo plainLocal false =
      ⟨Outcome.returned true,
        [Event.statPath "/backup", Event.chdir "/backup", Event.statRepo "proj",
         Event.listRemote "https://git.example/alice/proj.git"
           (AuthMethod.basicAuth "xyz" "t0k3n")]⟩ :=
  ⟨by decide,
    (clone_not_found_stops notFoundEnv tokenRepo plainLocal false
      [Event.statPath "/backup", Event.chdir "/backup"] tokenRepo
      (AuthMethod.basicAuth "xyz" "t0k3n") rfl rfl (by decide)
      (by decide)).1.trans (by decide)⟩

/-- C11: `VerifyHost` trusts on first use, and on every later use as well.
It accepts and leaves the known-hosts file as it is exactly when the lookup
reports the host as found without an error.  For every other answer of the
lookup (host absent, or host found with another key) it appends the presented
key: when the append succeeds the call accepts and the file has one more line,
the presented one; when the append fails the call returns that error and the
file is unchanged.  So an error comes back only from a failed append, never
from a changed key. -/
theorem VerifyHost_trust_on_first_use (henv : HostEnv) (store : List KnownHost)
    (host remote key : String) :
    (VerifyHost henv store host remote key = (none, store) ↔
      henv.checkKnownHost store host remote key = (true, none))
    ∧ (∀ lookupErr, henv.checkKnownHost store host remote key = (false, lookupErr) →
        henv.addKnownHost store host remote key = none →
        VerifyHost henv store host remote key = (none, store ++ [⟨host, remote, key⟩]))
    ∧ (∀ mismatch, henv.checkKnownHost store host remote key = (true, some mismatch) →
        henv.addKnownHost store host remote key = none →
        VerifyHost henv store host remote key = (none, store ++ [⟨host, remote, key⟩]))
    ∧ (∀ e, (VerifyHost henv store host remote key).1 = some e →
        henv.checkKnownHost store host remote key ≠ (true, none) ∧
        henv.addKnownHost store host remote key = some e ∧
        (VerifyHost henv store host remote key).2 = store) := by
  unfold VerifyHost
  rcases hc : henv.checkKnownHost store host remote key with ⟨found, err⟩
  refine ⟨?_, ?_, ?_, ?_⟩
  · constructor
    · intro h
      simp only at h
      split at h
      · rename_i hf
        simp only [hf.1, hf.2]
      · split at h
        · simp only [Prod.mk.injEq, true_and] at h
          have := congrArg List.length h
          simp at this
        · simp at h
    · intro h
      simp only [Prod.mk.injEq] at h
      simp [h.1, h.2]
  · intro lookupErr h ha
    simp only [Prod.mk.injEq] at h
    simp [h.1, ha]
  · intro mismatch h ha
    simp only [Prod.mk.injEq] at h
    simp [h.1, h.2, ha]
  · intro e h
    simp only at h ⊢
    split at h
    · simp at h
    · rename_i hf
      split at h
      · simp at h
      · rename_i e2 ha
        simp only [Option.some.injEq] at h
        subst h
        refine ⟨?_, ha, ?_⟩
        · intro hEq
          simp only [Prod.mk.injEq] at hEq
          exact hf ⟨hEq.1, hEq.2⟩
        · simp [hf, ha]

/-- Witness for C11: the host is pinned with one key and presents another. -/
theorem VerifyHost_trust_on_first_use_witness :
    fileHostEnv.checkKnownHost pinnedStore "git.example" "203.0.113.7:22"
        "ssh-ed25519 AAAA-other" = (true, some "knownhosts: key mismatch") ∧
    VerifyHost fileHostEnv pinnedStore "git.example" "203.0.113.7:22" "ssh-ed25519 AAAA-other" =
      (none, pinnedStore ++ [⟨"git.example", "203.0.113.7:22", "ssh-ed25519 AAAA-other"⟩]) :=
  ⟨by decide,
    (VerifyHost_trust_on_first_use fileHostEnv pinnedStore "git.example" "203.0.113.7:22"
      "ssh-ed25519 AAAA-other").2.2.1 "knownhosts: key mismatch" (by decide) rfl⟩

/-- C12: when every entry the retention block considers is named by a decimal
timestamp of the same number of digits (followed by the archive suffix when
compression is on), the order of the raw names is the order of the timestamps:
sorting the names in descending order is sorting the timestamps in descending
order, the entries kept are the first `keep` of the entries sorted by
descending timestamp, as many as `min keep (number of entries considered)`, and
every removed entry has a smaller timestamp than every kept one.  With one to
eighteen digits every such name also parses, so no warning is logged; and the
timestamp read off the name `Locally` writes for a non-negative Unix time is
that time. -/
theorem timestamps_sort_numerically (l : Local) (files : List String) (w : Nat)
    (hk : l.Keep > 0) (hnd : files.Nodup)
    (hts : ∀ f ∈ (pruneScan l.Compression files).1, IsTimestampName w l.Compression f) :
    (∀ a ∈ (pruneScan l.Compression files).1, ∀ b ∈ (pruneScan l.Compression files).1,
      (a < b ↔ timestampOf l.Compression a < timestampOf l.Compression b))
    ∧ sortReverse (pruneScan l.Compression files).1 =
        (pruneScan l.Compression files).1.insertionSort
          (fun a b => timestampOf l.Compression b ≤ timestampOf l.Compression a)
    ∧ (∀ f, f ∈ keptEntries l files ↔
        f ∈ ((pruneScan l.Compression files).1.insertionSort
          (fun a b => timestampOf l.Compression b ≤ timestampOf l.Compression a)).take
            l.Keep.toNat)
    ∧ (keptEntries l files).length = min l.Keep.toNat (pruneScan l.Compression files).1.length
    ∧ (∀ a ∈ keptEntries l files, ∀ b ∈ pruneRemove l files,
        timestampOf l.Compression b < timestampOf l.Compression a)
    ∧ (0 < w → w ≤ 18 → ∀ f ∈ (pruneScan l.Compression files).1,
        parseIntOk (entryStem l.Compression f) = true)
    ∧ (∀ t : Int, 0 ≤ t →
        timestampOf l.Compression
          (sprintInt t ++ (if l.Compression ≠ "" then getCompressedArchiveSuffix l.Compression
            else "")) = t.toNat) := by
  rw [pruneScan_keep] at hts ⊢
  have hvalid : ∀ f ∈ files.filter (validEntry l.Compression),
      validEntry l.Compression f = true := fun f hf => (List.mem_filter.mp hf).2
  have hiff : ∀ a ∈ files.filter (validEntry l.Compression),
      ∀ b ∈ files.filter (validEntry l.Compression),
      (a.data < b.data ↔ timestampOf l.Compression a < timestampOf l.Compression b) :=
    fun a ha b hb =>
      name_lt_iff_timestamp_lt l.Compression w a b (hvalid a ha) (hvalid b hb) (hts a ha)
        (hts b hb)
  have hsort : sortReverse (files.filter (validEntry l.Compression)) =
      (files.filter (validEntry l.Compression)).insertionSort
        (fun a b => timestampOf l.Compression b ≤ timestampOf l.Compression a) := by
    unfold sortReverse
    apply insertionSort_congr
    intro a ha b hb
    rw [← not_lt, ← not_lt, hiff a ha b hb]
  have hperm := prune_kept l files hk hnd
  refine ⟨?_, hsort, ?_, ?_, ?_, ?_,
    fun t ht => (written_name_timestamp l.Compression t ht).2⟩
  · intro a ha b hb
    rw [String.lt_iff_toList_lt]
    exact hiff a ha b hb
  · intro f
    rw [← hsort]
    exact hperm.mem_iff
  · rw [hperm.length_eq, List.length_take, (sortReverse_perm _).length_eq]
  · intro a ha b hb
    have hlt := removed_below_kept l files hk hnd a ha b hb
    have haV : a ∈ files.filter (validEntry l.Compression) := by
      unfold keptEntries listingAfter at ha
      simp only [List.mem_filter] at ha ⊢
      exact ⟨ha.1.1, ha.2⟩
    have hbV : b ∈ files.filter (validEntry l.Compression) := by
      rw [pruneRemove_eq l files hk] at hb
      exact (sortReverse_perm _).mem_iff.mp (List.mem_of_mem_drop hb)
    exact (hiff b hbV a haV).mp hlt
  · intro hw hw2 f hf
    exact timestamp_parses _ w (hts f hf).1 (hts f hf).2 hw hw2

/-- Witness for C12: five zip snapshots named by three-digit timestamps, next
to a stray entry the scan does not consider; the three most recent stay. -/
theorem timestamps_sort_numerically_witness :
    snapshotLocal.Keep > 0 ∧
    (∀ f ∈ (pruneScan snapshotLocal.Compression
        ["100.zip", "200.zip", "300.zip", "400.zip", "500.zip", "notes"]).1,
      IsTimestampName 3 snapshotLocal.Compression f) ∧
    (∀ a ∈ keptEntries snapshotLocal
        ["100.zip", "200.zip", "300.zip", "400.zip", "500.zip", "notes"],
      ∀ b ∈ pruneRemove snapshotLocal
        ["100.zip", "200.zip", "300.zip", "400.zip", "500.zip", "notes"],
      timestampOf snapshotLocal.Compression b < timestampOf snapshotLocal.Compression a) :=
  ⟨by decide, by decide,
    (timestamps_sort_numerically snapshotLocal
      ["100.zip", "200.zip", "300.zip", "400.zip", "500.zip", "notes"] 3
      (by decide) (by decide) (by decide)).2.2.2.2.1⟩

end Gickup
